import Mathlib

/-!
Verification of the noproto protobuf codec.

The development is a shallow embedding of the Rust sources:

* byte buffers are `List Nat` whose elements are byte values;
* `usize` values are `Nat`; `u32`/`u64` arithmetic is `Nat` arithmetic with
  explicit `% 2 ^ 32` / `% 2 ^ 64` where the Rust code can wrap;
* `i32`/`i64` values are `Int` with their two's-complement bit patterns made
  explicit where the code manipulates bits;
* fallible operations return explicit result types (`WRes`, `RRes`, `ORes`);
  a `panic!` in the source is modelled by a distinguished `panicked` outcome.
-/

namespace Noproto

/-- Result of a writer operation.  `ok` carries the updated writer state,
`err` models `Err(WriteError)`, and `panicked` models a Rust `panic!`
(the only writer panic site is the `len.try_into().unwrap()` in
`write_length_delimited`, reachable when the body length does not fit in
`u32`, i.e. on a 64-bit `usize`). -/
inductive WRes (α : Type) where
  | ok (a : α)
  | err
  | panicked
deriving DecidableEq

/-- Result of a reader operation. `err` models `Err(ReadError)`. -/
inductive RRes (α : Type) where
  | ok (a : α)
  | err
deriving DecidableEq

/-- Result of a oneof read operation, which may also panic
(`Option<M>::read_raw_option` in `impls.rs`). -/
inductive ORes (α : Type) where
  | ok (a : α)
  | err
  | panicked
deriving DecidableEq

/-- Wire type of a field (`lib.rs`).  Only `Varint = 0` and
`LengthDelimited = 2` are inhabited, exactly as in the source enum. -/
inductive WireType where
  | Varint
  | LengthDelimited
deriving DecidableEq

/-- Numeric value of a wire type, modelling `M::WIRE_TYPE as u32`. -/
def WireType.toNum : WireType → Nat
  | .Varint => 0
  | .LengthDelimited => 2

/-- Writer for protobuf messages (`write.rs`): a mutable byte buffer plus a
write position.  The buffer is a byte list of fixed length. -/
structure ByteWriter where
  buf : List Nat
  pos : Nat
deriving DecidableEq

/-- Overwrite the bytes of `buf` at positions `[p, p + bs.length)` with `bs`,
leaving everything else unchanged.  This models
`self.buf[self.pos..][..bytes.len()].copy_from_slice(bytes)`. -/
def splice (buf : List Nat) (p : Nat) (bs : List Nat) : List Nat :=
  buf.take p ++ bs ++ buf.drop (p + bs.length)

/-- Model of `slice::copy_within(s..e, d)`: copy the range `[s, e)` of `buf`
to position `d`. -/
def copyWithin (buf : List Nat) (s e d : Nat) : List Nat :=
  buf.take d ++ (buf.drop s).take (e - s) ++ buf.drop (d + (e - s))

/-- Bytes written so far (`ByteWriter::bytes`): the prefix `[0, pos)`. -/
def ByteWriter.bytes (w : ByteWriter) : List Nat :=
  w.buf.take w.pos

/-- Model of `ByteWriter::write`: fail if the remaining capacity is smaller
than the slice, otherwise copy the slice at `pos` and advance `pos`.
On failure the Rust writer state is simply left unchanged; the model
returns `err` carrying no state. -/
def ByteWriter.write (w : ByteWriter) (bytes : List Nat) : WRes ByteWriter :=
  if w.buf.length - w.pos < bytes.length then .err
  else .ok ⟨splice w.buf w.pos bytes, w.pos + bytes.length⟩

/-- Model of `ByteWriter::write_u8` (`val.to_le_bytes()` of a `u8` is the
single byte itself; every call site passes a value `< 256`). -/
def ByteWriter.write_u8 (w : ByteWriter) (val : Nat) : WRes ByteWriter :=
  w.write [val]

/-- The loop body shared verbatim by `write_varuint32` and `write_varuint64`
in `write.rs`: emit 7-bit groups low to high, setting bit 7 on every
non-final byte.  The loop is identical for both widths because it only
stops when the remaining value is zero. -/
def ByteWriter.write_varuintCore (w : ByteWriter) (val : Nat) : WRes ByteWriter :=
  let part := val &&& 0x7F
  let rest := val >>> 7
  if rest ≠ 0 then
    match w.write_u8 (part ||| 0x80) with
    | .ok w1 => w1.write_varuintCore rest
    | .err => .err
    | .panicked => .panicked
  else
    w.write_u8 part
termination_by val
decreasing_by
  rename_i hr
  have hv : val ≠ 0 := by
    intro h0
    apply hr
    show val >>> 7 = 0
    rw [h0]
    rfl
  calc val >>> 7 = val / 2 ^ 7 := Nat.shiftRight_eq_div_pow val 7
    _ < val := Nat.div_lt_self (Nat.pos_of_ne_zero hv) (by norm_num)

/-- Model of `ByteWriter::write_varuint32`. -/
def ByteWriter.write_varuint32 (w : ByteWriter) (val : Nat) : WRes ByteWriter :=
  w.write_varuintCore val

/-- Model of `ByteWriter::write_varuint64`. -/
def ByteWriter.write_varuint64 (w : ByteWriter) (val : Nat) : WRes ByteWriter :=
  w.write_varuintCore val

/-- Two's-complement bit pattern (as a `Nat` below `2 ^ w`) of the signed
value `v` stored in a `w`-bit machine integer. -/
def toUW (w : Nat) (v : Int) : Nat :=
  (v % (2 ^ w : Int)).toNat

/-- Signed value of a `w`-bit two's-complement pattern. -/
def fromUW (w : Nat) (p : Nat) : Int :=
  if p < 2 ^ (w - 1) then (p : Int) else (p : Int) - 2 ^ w

/-- Bit pattern of `((val >> (w-1)) ^ (val << 1)) as uw` from
`write_varint32` / `write_varint64`:  the arithmetic shift `val >> (w-1)`
has pattern all-ones exactly when `val` is negative, and `val << 1` has
pattern `2 * pattern(val) mod 2 ^ w`. -/
def zigzagPattern (w : Nat) (v : Int) : Nat :=
  ((2 * toUW w v) % 2 ^ w) ^^^ (if v < 0 then 2 ^ w - 1 else 0)

/-- Model of `ByteReader::read_varint32/64`'s decoding expression
`((u >> 1) as iw) ^ -((u AND 1) as iw)`:  `u >>> 1` is below `2 ^ (w-1)` so
its signed value has the same pattern, and `-(u AND 1)` has pattern
all-ones exactly when `u` is odd. -/
def unzigzag (w : Nat) (u : Nat) : Int :=
  fromUW w ((u >>> 1) ^^^ (if u % 2 = 1 then 2 ^ w - 1 else 0))

/-- Model of `ByteWriter::write_varint32` (zigzag then unsigned varint). -/
def ByteWriter.write_varint32 (w : ByteWriter) (val : Int) : WRes ByteWriter :=
  w.write_varuintCore (zigzagPattern 32 val)

/-- Model of `ByteWriter::write_varint64`. -/
def ByteWriter.write_varint64 (w : ByteWriter) (val : Int) : WRes ByteWriter :=
  w.write_varuintCore (zigzagPattern 64 val)

/-- Model of `ByteWriter::write_length_delimited`: run the nested writer in
place, then shift its output forward to make room for the varint length
header and insert the header.  `len.try_into().unwrap()` panics when the
body length does not fit in `u32` (64-bit `usize`), modelled by the
`panicked` branch. -/
def ByteWriter.write_length_delimited (w : ByteWriter)
    (f : ByteWriter → WRes ByteWriter) : WRes ByteWriter :=
  let start := w.pos
  match f w with
  | .err => .err
  | .panicked => .panicked
  | .ok w1 =>
    let len := w1.pos - start
    if len < 2 ^ 32 then
      match ByteWriter.write_varuintCore ⟨List.replicate 16 0, 0⟩ len with
      | .err => .err
      | .panicked => .panicked
      | .ok hw =>
        let header := hw.buf.take hw.pos
        if w1.buf.length - w1.pos < header.length then .err
        else
          .ok ⟨splice (copyWithin w1.buf start w1.pos (start + header.length)) start header,
               w1.pos + header.length⟩
    else .panicked

/-- Reader for protobuf messages (`read.rs`): the remaining unconsumed
bytes. -/
structure ByteReader where
  data : List Nat
deriving DecidableEq

/-- Model of `ByteReader::read_slice`. -/
def ByteReader.read_slice (r : ByteReader) (len : Nat) : RRes (List Nat × ByteReader) :=
  if len ≤ r.data.length then .ok (r.data.take len, ⟨r.data.drop len⟩) else .err

/-- Model of `ByteReader::read_to_end`. -/
def ByteReader.read_to_end (r : ByteReader) : RRes (List Nat × ByteReader) :=
  .ok (r.data, ⟨[]⟩)

/-- The loop of `read_varuint32` / `read_varuint64` with destination width
`w`: accumulate 7-bit groups until a byte with bit 7 clear; groups whose
shift offset reaches `w` are discarded, and the Rust `u32`/`u64` shift
truncates the group to the destination width (the `% 2 ^ w`). -/
def readVaruintAux (w : Nat) : List Nat → Nat → Nat → RRes (Nat × List Nat)
  | [], _, _ => .err
  | x :: rest, res, shift =>
    let res1 := if shift < w then res ||| ((x &&& 0x7F) <<< shift % 2 ^ w) else res
    if x &&& 0x80 = 0 then .ok (res1, rest)
    else readVaruintAux w rest res1 (shift + 7)

/-- Model of `ByteReader::read_varuint32`. -/
def ByteReader.read_varuint32 (r : ByteReader) : RRes (Nat × ByteReader) :=
  match readVaruintAux 32 r.data 0 0 with
  | .ok (v, rest) => .ok (v, ⟨rest⟩)
  | .err => .err

/-- Model of `ByteReader::read_varuint64`. -/
def ByteReader.read_varuint64 (r : ByteReader) : RRes (Nat × ByteReader) :=
  match readVaruintAux 64 r.data 0 0 with
  | .ok (v, rest) => .ok (v, ⟨rest⟩)
  | .err => .err

/-- Model of `ByteReader::read_varint32` (unsigned varint then zigzag). -/
def ByteReader.read_varint32 (r : ByteReader) : RRes (Int × ByteReader) :=
  match r.read_varuint32 with
  | .ok (u, r1) => .ok (unzigzag 32 u, r1)
  | .err => .err

/-- Model of `ByteReader::read_varint64`. -/
def ByteReader.read_varint64 (r : ByteReader) : RRes (Int × ByteReader) :=
  match r.read_varuint64 with
  | .ok (u, r1) => .ok (unzigzag 64 u, r1)
  | .err => .err

/-- The scan of `read_varuint_bytes`: find the first byte with bit 7 clear
and return the raw varint bytes up to and including it, plus the rest. -/
def readVaruintBytesAux : List Nat → Option (List Nat × List Nat)
  | [] => none
  | b :: rest =>
    if b &&& 0x80 = 0 then some ([b], rest)
    else
      match readVaruintBytesAux rest with
      | none => none
      | some (v, r) => some (b :: v, r)

/-- Model of `ByteReader::read_varuint_bytes`. -/
def ByteReader.read_varuint_bytes (r : ByteReader) : RRes (List Nat × ByteReader) :=
  match readVaruintBytesAux r.data with
  | some (v, rest) => .ok (v, ⟨rest⟩)
  | none => .err

/-- A field view (`FieldReader` in `read.rs`): tag, payload bytes, wire
type. -/
structure FieldReader where
  tag : Nat
  data : List Nat
  wire_type : WireType
deriving DecidableEq

/-- One step of the field iterator (`FieldIter::next`): `none` at end of
input; otherwise read the header varint, reject wire types other than 0
and 2, and slice out the payload (raw varint bytes, or a length varint
followed by that many bytes).  The successor reader is returned alongside
the field view, modelling the iterator's mutation of the shared reader. -/
def fieldIterNext (r : ByteReader) : Option (RRes (FieldReader × ByteReader)) :=
  if r.data = [] then none
  else some (
    match r.read_varuint32 with
    | .err => .err
    | .ok (header, r1) =>
      if header &&& 0b111 = 0 then
        match r1.read_varuint_bytes with
        | .err => .err
        | .ok (d, r2) => .ok (⟨header >>> 3, d, .Varint⟩, r2)
      else if header &&& 0b111 = 2 then
        match r1.read_varuint32 with
        | .err => .err
        | .ok (len, r2) =>
          match r2.read_slice len with
          | .err => .err
          | .ok (d, r3) => .ok (⟨header >>> 3, d, .LengthDelimited⟩, r3)
      else .err)

/-- A message implementation (the `Message` trait of `lib.rs`): a constant
wire type, a body serializer, and a body parser.  `read_raw` takes the
current value (Rust `&mut self`) and returns the updated one. -/
structure MessageImpl (α : Type) where
  wireType : WireType
  write_raw : α → ByteWriter → WRes ByteWriter
  read_raw : α → ByteReader → RRes α

/-- Model of `FieldReader::read`: check the wire type, then hand the payload
to the target's `read_raw` on a fresh reader. -/
def FieldReader.read (impl : MessageImpl α) (fr : FieldReader) (msg : α) : RRes α :=
  if fr.wire_type ≠ impl.wireType then .err
  else impl.read_raw msg ⟨fr.data⟩

/-- Model of `FieldReader::read_repeated` specialised to the only
`RepeatedMessage` implementation in the source, `heapless::Vec<M, N>`
(capacity `cap`, `append` is a capacity-checked push).  `dflt` models
`M::default()`. -/
def FieldReader.read_repeated (impl : MessageImpl α) (dflt : α) (cap : Nat)
    (fr : FieldReader) (holder : List α) : RRes (List α) :=
  if fr.wire_type ≠ impl.wireType then .err
  else
    match FieldReader.read impl fr dflt with
    | .err => .err
    | .ok m => if holder.length < cap then .ok (holder ++ [m]) else .err

/-- Model of `FieldReader::read_optional` specialised to the only
`OptionalMessage` implementation in the source, `Option<M>` (`set`
overwrites the holder). -/
def FieldReader.read_optional (impl : MessageImpl α) (dflt : α)
    (fr : FieldReader) (_holder : Option α) : RRes (Option α) :=
  if fr.wire_type ≠ impl.wireType then .err
  else
    match FieldReader.read impl fr dflt with
    | .err => .err
    | .ok m => .ok (some m)

/-- Model of `FieldReader::read_oneof_variant`. -/
def FieldReader.read_oneof_variant (impl : MessageImpl α) (dflt : α)
    (fr : FieldReader) : RRes α :=
  if fr.wire_type ≠ impl.wireType then .err
  else impl.read_raw dflt ⟨fr.data⟩

/-- A oneof implementation (the `Oneof` trait of `lib.rs`). -/
structure OneofImpl (α : Type) where
  write_raw : α → ByteWriter → WRes ByteWriter
  read_raw : α → FieldReader → ORes α
  read_raw_option : Option α → FieldReader → ORes (Option α)

/-- The `impl<M: Oneof> Oneof for Option<M>` adapter of `impls.rs`.  Its
`read_raw_option` is `panic!("cannot nest options with oneof.")`. -/
def optionOneof (oi : OneofImpl α) : OneofImpl (Option α) where
  write_raw v w :=
    match v with
    | none => .ok w
    | some x => oi.write_raw x w
  read_raw this fr := oi.read_raw_option this fr
  read_raw_option _ _ := .panicked

/-- Model of `ByteWriter::write_field`: emit the header varint
`(tag << 3) | WIRE_TYPE` (computed in `u32`, hence the `% 2 ^ 32` on the
shift) and then the body, length-delimited when the target's wire type is
`LengthDelimited`. -/
def ByteWriter.write_field (impl : MessageImpl α) (tag : Nat) (msg : α)
    (w : ByteWriter) : WRes ByteWriter :=
  match w.write_varuintCore ((tag <<< 3 % 2 ^ 32) ||| impl.wireType.toNum) with
  | .err => .err
  | .panicked => .panicked
  | .ok w1 =>
    match impl.wireType with
    | .LengthDelimited => w1.write_length_delimited (impl.write_raw msg)
    | .Varint => impl.write_raw msg w1

/-- Model of `ByteWriter::write_repeated` for `heapless::Vec` holders: one
independent tag-prefixed field per element, in order. -/
def writeRepeatedList (impl : MessageImpl α) (tag : Nat) :
    List α → ByteWriter → WRes ByteWriter
  | [], w => .ok w
  | x :: xs, w =>
    match ByteWriter.write_field impl tag x w with
    | .ok w1 => writeRepeatedList impl tag xs w1
    | .err => .err
    | .panicked => .panicked

/-- Model of the top-level `write` entry point of `lib.rs`.  The Rust
function returns `Ok(w.pos())` and mutates the caller's buffer; the model
returns the written length together with the final buffer contents. -/
def write (impl : MessageImpl α) (msg : α) (buf : List Nat) : WRes (Nat × List Nat) :=
  match impl.write_raw msg ⟨buf, 0⟩ with
  | .ok w => .ok (w.pos, w.buf)
  | .err => .err
  | .panicked => .panicked

/-- Model of the top-level `read` entry point of `lib.rs`: parse into a
default-initialized value.  `dflt` models `M::default()`. -/
def read (impl : MessageImpl α) (dflt : α) (buf : List Nat) : RRes α :=
  impl.read_raw dflt ⟨buf⟩

/-- The field loop of a derive-generated `read_raw`
(`for r in r.read_fields() { match r.tag() { ... } }`), with an explicit
structural fuel so that the definition is kernel-computable.  Every yielded
field consumes at least one byte, so any fuel exceeding the reader's byte
count makes the bounded loop agree with the source's unbounded iterator
loop (`readLoopFuel_congr` below); all entry points pass such a fuel. -/
def readLoopFuel (step : α → FieldReader → RRes α) :
    Nat → α → ByteReader → RRes α
  | 0, _, _ => .err
  | n + 1, m, r =>
    match fieldIterNext r with
    | none => .ok m
    | some .err => .err
    | some (.ok (fr, r1)) =>
      match step m fr with
      | .err => .err
      | .ok m1 => readLoopFuel step n m1 r1

/-- Model of `heapless` `clear` (empty the container, capacity unchanged). -/
def heaplessClear (_s : List Nat) : List Nat := []

/-- Model of `heapless` `push_str` / `extend_from_slice` on a container of
byte capacity `cap`: append, failing when the result would exceed the
capacity. -/
def heaplessPush (cap : Nat) (s d : List Nat) : RRes (List Nat) :=
  if s.length + d.length ≤ cap then .ok (s ++ d) else .err

/-- Validity of a UTF-8 continuation byte. -/
def utf8Cont (b : Nat) : Bool :=
  0x80 ≤ b && b ≤ 0xBF

/-- Model of `core::str::from_utf8` validation (standard UTF-8: no
over-long encodings, no surrogates, max scalar `U+10FFFF`), as a Boolean
predicate on byte lists. -/
def utf8Valid : List Nat → Bool
  | [] => true
  | b :: rest =>
    if b ≤ 0x7F then utf8Valid rest
    else if 0xC2 ≤ b && b ≤ 0xDF then
      match rest with
      | c1 :: rest1 => utf8Cont c1 && utf8Valid rest1
      | [] => false
    else if b = 0xE0 then
      match rest with
      | c1 :: c2 :: rest1 => (0xA0 ≤ c1 && c1 ≤ 0xBF) && utf8Cont c2 && utf8Valid rest1
      | _ => false
    else if (0xE1 ≤ b && b ≤ 0xEC) || b = 0xEE || b = 0xEF then
      match rest with
      | c1 :: c2 :: rest1 => utf8Cont c1 && utf8Cont c2 && utf8Valid rest1
      | _ => false
    else if b = 0xED then
      match rest with
      | c1 :: c2 :: rest1 => (0x80 ≤ c1 && c1 ≤ 0x9F) && utf8Cont c2 && utf8Valid rest1
      | _ => false
    else if b = 0xF0 then
      match rest with
      | c1 :: c2 :: c3 :: rest1 =>
        (0x90 ≤ c1 && c1 ≤ 0xBF) && utf8Cont c2 && utf8Cont c3 && utf8Valid rest1
      | _ => false
    else if 0xF1 ≤ b && b ≤ 0xF3 then
      match rest with
      | c1 :: c2 :: c3 :: rest1 =>
        utf8Cont c1 && utf8Cont c2 && utf8Cont c3 && utf8Valid rest1
      | _ => false
    else if b = 0xF4 then
      match rest with
      | c1 :: c2 :: c3 :: rest1 =>
        (0x80 ≤ c1 && c1 ≤ 0x8F) && utf8Cont c2 && utf8Cont c3 && utf8Valid rest1
      | _ => false
    else false

/-- The primitive field types of the schema universe: the scalar `Message`
implementations of `impls.rs`, derive-generated enumerations (given by
their set of discriminants), and the bounded string / byte containers. -/
inductive PrimTy where
  | u8T
  | u32T
  | u64T
  | i32T
  | i64T
  | boolT
  | enumT (allowed : List Nat)
  | stringT (cap : Nat)
  | bytesT (cap : Nat)
deriving DecidableEq

/-- Carrier type of each primitive field type. -/
@[reducible] def PrimVal : PrimTy → Type
  | .u8T => Nat
  | .u32T => Nat
  | .u64T => Nat
  | .i32T => Int
  | .i64T => Int
  | .boolT => Bool
  | .enumT _ => Nat
  | .stringT _ => List Nat
  | .bytesT _ => List Nat

/-- The `Message` implementation of each primitive type, translated from
`impls.rs` (scalars, `heapless::String`, `heapless::Vec<u8>`) and from the
enumeration code generated by `noproto-derive` (`write_varuint32` of the
discriminant; read fails on an unknown discriminant).  The `u8` reader
models the strict `try_into` narrowing. -/
def primImpl : (t : PrimTy) → MessageImpl (PrimVal t)
  | .u8T =>
    { wireType := .Varint
      write_raw := fun v w => w.write_varuint32 v
      read_raw := fun _ r =>
        match r.read_varuint32 with
        | .ok (v, _) => if v < 2 ^ 8 then .ok v else .err
        | .err => .err }
  | .u32T =>
    { wireType := .Varint
      write_raw := fun v w => w.write_varuint32 v
      read_raw := fun _ r =>
        match r.read_varuint32 with
        | .ok (v, _) => .ok v
        | .err => .err }
  | .u64T =>
    { wireType := .Varint
      write_raw := fun v w => w.write_varuint64 v
      read_raw := fun _ r =>
        match r.read_varuint64 with
        | .ok (v, _) => .ok v
        | .err => .err }
  | .i32T =>
    { wireType := .Varint
      write_raw := fun v w => w.write_varint32 v
      read_raw := fun _ r =>
        match r.read_varint32 with
        | .ok (v, _) => .ok v
        | .err => .err }
  | .i64T =>
    { wireType := .Varint
      write_raw := fun v w => w.write_varint64 v
      read_raw := fun _ r =>
        match r.read_varint64 with
        | .ok (v, _) => .ok v
        | .err => .err }
  | .boolT =>
    { wireType := .Varint
      write_raw := fun v w => w.write_varuint32 (if v then 1 else 0)
      read_raw := fun _ r =>
        match r.read_varuint32 with
        | .ok (0, _) => .ok false
        | .ok (1, _) => .ok true
        | .ok _ => .err
        | .err => .err }
  | .enumT allowed =>
    { wireType := .Varint
      write_raw := fun v w => w.write_varuint32 v
      read_raw := fun _ r =>
        match r.read_varuint32 with
        | .ok (v, _) => if v ∈ allowed then .ok v else .err
        | .err => .err }
  | .stringT cap =>
    { wireType := .LengthDelimited
      write_raw := fun s w => w.write s
      read_raw := fun old r =>
        match r.read_to_end with
        | .ok (data, _) =>
          if utf8Valid data then heaplessPush cap (heaplessClear old) data
          else .err
        | .err => .err }
  | .bytesT cap =>
    { wireType := .LengthDelimited
      write_raw := fun s w => w.write s
      read_raw := fun old r =>
        match r.read_to_end with
        | .ok (data, _) => heaplessPush cap (heaplessClear old) data
        | .err => .err }

/-- Default value of each primitive type (`Default` in Rust; the
enumeration default is its first declared variant). -/
def primDefault : (t : PrimTy) → PrimVal t
  | .u8T => 0
  | .u32T => 0
  | .u64T => 0
  | .i32T => 0
  | .i64T => 0
  | .boolT => false
  | .enumT allowed => allowed.headD 0
  | .stringT _ => []
  | .bytesT _ => []

/-- Schema-level validity of a primitive value: the value fits the Rust
storage type, enumeration discriminants are in range, bounded containers
are within capacity and strings are valid UTF-8. -/
def primValidB : (t : PrimTy) → PrimVal t → Bool
  | .u8T, v => decide (v < 2 ^ 8)
  | .u32T, v => decide (v < 2 ^ 32)
  | .u64T, v => decide (v < 2 ^ 64)
  | .i32T, v => decide (-(2 ^ 31) ≤ v ∧ v < 2 ^ 31)
  | .i64T, v => decide (-(2 ^ 63) ≤ v ∧ v < 2 ^ 63)
  | .boolT, _ => true
  | .enumT allowed, v => decide (v < 2 ^ 32) && decide (v ∈ allowed)
  | .stringT cap, s => utf8Valid s && decide (s.length ≤ cap)
  | .bytesT cap, s => decide (s.length ≤ cap) && s.all (fun b => decide (b < 2 ^ 8))

/-- Field kinds of the schema universe (`single`, `optional`, bounded
`repeated` with capacity `cap`). -/
inductive FieldKind where
  | single
  | optional
  | repeated (cap : Nat)
deriving DecidableEq

/-- One schema field: a tag, a kind and a primitive type. -/
structure SchemaField where
  tag : Nat
  kind : FieldKind
  ty : PrimTy
deriving DecidableEq

/-- Carrier of a field value for a given kind and primitive type. -/
@[reducible] def FieldVal : FieldKind → PrimTy → Type
  | .single, t => PrimVal t
  | .optional, t => Option (PrimVal t)
  | .repeated _, t => List (PrimVal t)

/-- A value of a composite message over a schema: one field value per
schema field. -/
inductive MsgVal : List SchemaField → Type where
  | nil : MsgVal []
  | cons {f : SchemaField} {fs : List SchemaField}
      (v : FieldVal f.kind f.ty) (rest : MsgVal fs) : MsgVal (f :: fs)

/-- Default value of a field (what `Default` produces for the generated
struct field). -/
def fieldDefault : (k : FieldKind) → (t : PrimTy) → FieldVal k t
  | .single, t => primDefault t
  | .optional, _ => none
  | .repeated _, _ => []

/-- Default value of a composite message. -/
def msgDefault : (s : List SchemaField) → MsgVal s
  | [] => .nil
  | f :: fs => .cons (fieldDefault f.kind f.ty) (msgDefault fs)

/-- The write arm generated per field by `noproto-derive`
(`write_field` / `write_optional` / `write_repeated`). -/
def writeFieldKd : (k : FieldKind) → (t : PrimTy) → Nat → FieldVal k t →
    ByteWriter → WRes ByteWriter
  | .single, t, tag, v, w => ByteWriter.write_field (primImpl t) tag v w
  | .optional, _, _, none, w => .ok w
  | .optional, t, tag, some x, w => ByteWriter.write_field (primImpl t) tag x w
  | .repeated _, t, tag, xs, w => writeRepeatedList (primImpl t) tag xs w

/-- The generated `write_raw` of a composite message: every field in
schema order. -/
def msgWriteRaw : {s : List SchemaField} → MsgVal s → ByteWriter → WRes ByteWriter
  | _, .nil, w => .ok w
  | f :: _, .cons v rest, w =>
    match writeFieldKd f.kind f.ty f.tag v w with
    | .ok w1 => msgWriteRaw rest w1
    | .err => .err
    | .panicked => .panicked

/-- The read arm generated per field by `noproto-derive`
(`r.read` / `r.read_optional` / `r.read_repeated`). -/
def stepFieldKd : (k : FieldKind) → (t : PrimTy) → FieldReader → FieldVal k t →
    RRes (FieldVal k t)
  | .single, t, fr, v => FieldReader.read (primImpl t) fr v
  | .optional, t, fr, v => FieldReader.read_optional (primImpl t) (primDefault t) fr v
  | .repeated cap, t, fr, v => FieldReader.read_repeated (primImpl t) (primDefault t) cap fr v

/-- The generated tag dispatch of `read_raw`: the source emits a `match`
over tag literals with a silent `_ => {}` fall-through; since tags are
distinct this is modelled as a scan over the schema fields. -/
def msgStep : {s : List SchemaField} → MsgVal s → FieldReader → RRes (MsgVal s)
  | _, .nil, _ => .ok .nil
  | f :: _, .cons v rest, fr =>
    if fr.tag = f.tag then
      match stepFieldKd f.kind f.ty fr v with
      | .ok v1 => .ok (.cons v1 rest)
      | .err => .err
    else
      match msgStep rest fr with
      | .ok rest1 => .ok (.cons v rest1)
      | .err => .err

/-- The generated `read_raw` of a composite message: iterate the field
stream, dispatching on tags. -/
def msgReadRaw {s : List SchemaField} (m : MsgVal s) (r : ByteReader) : RRes (MsgVal s) :=
  readLoopFuel msgStep (r.data.length + 1) m r

/-- The generated `Message` implementation of a composite message
(`WIRE_TYPE = LengthDelimited`). -/
def genImpl (s : List SchemaField) : MessageImpl (MsgVal s) where
  wireType := .LengthDelimited
  write_raw := fun m w => msgWriteRaw m w
  read_raw := fun m r => msgReadRaw m r

/-- Schema well-formedness: tags are distinct, nonzero, and within the
protobuf field-number range (so that `tag << 3` does not wrap in `u32`). -/
def schemaWFB (s : List SchemaField) : Bool :=
  decide ((s.map SchemaField.tag).Nodup) &&
    s.all (fun f => decide (1 ≤ f.tag) && decide (f.tag < 2 ^ 29))

/-- Validity of a field value. -/
def fieldValidB : (k : FieldKind) → (t : PrimTy) → FieldVal k t → Bool
  | .single, t, v => primValidB t v
  | .optional, _, none => true
  | .optional, t, some x => primValidB t x
  | .repeated cap, t, xs => decide (xs.length ≤ cap) && xs.all (primValidB t)

/-- Validity of a composite message value. -/
def msgValidB : {s : List SchemaField} → MsgVal s → Bool
  | _, .nil => true
  | _ :: _, .cons v rest => fieldValidB _ _ v && msgValidB rest

/-- Structural-fuel worker for `varuintBytes`; the fuel bounds the number
of loop iterations and any fuel at least the value itself suffices
(`varuintBytesGo_congr`). -/
def varuintBytesGo : Nat → Nat → List Nat
  | 0, v => [v &&& 0x7F]
  | fuel + 1, v =>
    if v >>> 7 = 0 then [v &&& 0x7F]
    else (v &&& 0x7F ||| 0x80) :: varuintBytesGo fuel (v >>> 7)

/-- The byte list emitted for `v` by the varint write loop: little-endian
7-bit groups, continuation bit on every byte except the last. -/
def varuintBytes (v : Nat) : List Nat :=
  varuintBytesGo v v

/-- A byte list is a terminated varint when it is nonempty, every byte
before the last has bit 7 set, and the last has bit 7 clear. -/
def isTermVarint : List Nat → Bool
  | [] => false
  | [b] => b &&& 0x80 = 0
  | b :: rest => b &&& 0x80 ≠ 0 && isTermVarint rest

/-- The value a width-`w` varint read assembles from a terminated byte
list starting at shift offset `shift`: 7-bit groups are OR-ed in at their
shift offset, truncated to the destination width, and groups at offsets
`≥ w` are discarded.  This follows the specification's wording; the read
loop is proved to compute it (`readVaruintAux_term`). -/
def assembleVaruint (w : Nat) : List Nat → Nat → Nat
  | [], _ => 0
  | b :: rest, shift =>
    (if shift < w then (b &&& 0x7F) <<< shift % 2 ^ w else 0) |||
      assembleVaruint w rest (shift + 7)

/-- The body bytes each primitive value serializes to (`write_raw`):
varint bytes for the scalar types, the raw contents for strings and byte
sequences. -/
def encodePrim : (t : PrimTy) → PrimVal t → List Nat
  | .u8T, v => varuintBytes v
  | .u32T, v => varuintBytes v
  | .u64T, v => varuintBytes v
  | .i32T, v => varuintBytes (zigzagPattern 32 v)
  | .i64T, v => varuintBytes (zigzagPattern 64 v)
  | .boolT, v => varuintBytes (if v then 1 else 0)
  | .enumT _, v => varuintBytes v
  | .stringT _, s => s
  | .bytesT _, s => s

/-- The header value `(tag << 3) | WIRE_TYPE` written by `write_field` for
a primitive target. -/
def headerOf (t : PrimTy) (tag : Nat) : Nat :=
  (tag <<< 3 % 2 ^ 32) ||| (primImpl t).wireType.toNum

/-- The bytes of one tag-prefixed field: header varint, then either the
raw varint body or a length prefix followed by the body. -/
def encodeFieldSingle (t : PrimTy) (tag : Nat) (v : PrimVal t) : List Nat :=
  varuintBytes (headerOf t tag) ++
    (match (primImpl t).wireType with
     | .Varint => encodePrim t v
     | .LengthDelimited => varuintBytes (encodePrim t v).length ++ encodePrim t v)

/-- The bytes a field of the given kind contributes to the message body:
nothing for an absent optional, one field per element for repeated. -/
def encodeFieldKd : (k : FieldKind) → (t : PrimTy) → Nat → FieldVal k t → List Nat
  | .single, t, tag, v => encodeFieldSingle t tag v
  | .optional, _, _, none => []
  | .optional, t, tag, some x => encodeFieldSingle t tag x
  | .repeated _, t, tag, xs => (xs.map (encodeFieldSingle t tag)).flatten

/-- The full encoded body of a composite message: fields in schema
order. -/
def encodeMsg : {s : List SchemaField} → MsgVal s → List Nat
  | _, .nil => []
  | f :: _, .cons v rest => encodeFieldKd f.kind f.ty f.tag v ++ encodeMsg rest

/-- The field view the iterator produces for one encoded field: for a
varint target the payload is the raw varint bytes, for a length-delimited
target it is the body contents; both equal `encodePrim`. -/
def frSingle (t : PrimTy) (tag : Nat) (v : PrimVal t) : FieldReader :=
  ⟨tag, encodePrim t v, (primImpl t).wireType⟩

/-- The field views contributed by one schema field of a valid message. -/
def fieldFrs : (k : FieldKind) → (t : PrimTy) → Nat → FieldVal k t → List FieldReader
  | .single, t, tag, v => [frSingle t tag v]
  | .optional, _, _, none => []
  | .optional, t, tag, some x => [frSingle t tag x]
  | .repeated _, t, tag, xs => xs.map (frSingle t tag)

/-- The field views of a whole encoded message, in stream order. -/
def msgFrs : {s : List SchemaField} → MsgVal s → List FieldReader
  | _, .nil => []
  | f :: _, .cons v rest => fieldFrs f.kind f.ty f.tag v ++ msgFrs rest

/-- Fold a field-dispatch step over a list of field views, aborting on the
first failure: the pure counterpart of the read loop once the byte stream
has been split into fields. -/
def foldE (step : α → FieldReader → RRes α) : α → List FieldReader → RRes α
  | m, [] => .ok m
  | m, fr :: frs =>
    match step m fr with
    | .ok m1 => foldE step m1 frs
    | .err => .err

/-- Pre-state relation for one field: parsing the encoding of `v` starting
from holder state `mv` ends in exactly `v` when absent optionals are
already absent and repeated holders start empty. -/
def preFieldB : (k : FieldKind) → (t : PrimTy) → FieldVal k t → FieldVal k t → Bool
  | .single, _, _, _ => true
  | .optional, _, mv, vv =>
    match vv, mv with
    | none, none => true
    | none, some _ => false
    | some _, _ => true
  | .repeated _, _, mv, _ => mv.isEmpty

/-- Pre-state relation for a whole message (satisfied by the default
value). -/
def preStateB : {s : List SchemaField} → MsgVal s → MsgVal s → Bool
  | _, .nil, .nil => true
  | _ :: _, .cons mv mrest, .cons vv vrest => preFieldB _ _ mv vv && preStateB mrest vrest

/-- The (encoded bytes, field view) pairs one schema field contributes to
the encoded stream, pairing each tag-prefixed field with the view the
iterator produces for it. -/
def fieldChunks : (k : FieldKind) → (t : PrimTy) → Nat → FieldVal k t →
    List (List Nat × FieldReader)
  | .single, t, tag, v => [(encodeFieldSingle t tag v, frSingle t tag v)]
  | .optional, _, _, none => []
  | .optional, t, tag, some x => [(encodeFieldSingle t tag x, frSingle t tag x)]
  | .repeated _, t, tag, xs =>
    xs.map (fun x => (encodeFieldSingle t tag x, frSingle t tag x))

/-- The (encoded bytes, field view) pairs of a whole message, in stream
order. -/
def msgChunks : {s : List SchemaField} → MsgVal s → List (List Nat × FieldReader)
  | _, .nil => []
  | f :: _, .cons v rest => fieldChunks f.kind f.ty f.tag v ++ msgChunks rest

theorem and_sevenBits_eq_mod (x : Nat) : x &&& 0x7F = x % 128 := by
  have h : (0x7F : Nat) = 2 ^ 7 - 1 := by norm_num
  rw [h, Nat.and_pow_two_sub_one_eq_mod]

theorem shiftRight_seven_eq_div (x : Nat) : x >>> 7 = x / 128 :=
  Nat.shiftRight_eq_div_pow x 7

theorem and_two_pow_eq_zero {a n : Nat} (h : a < 2 ^ n) : a &&& 2 ^ n = 0 := by
  apply Nat.eq_of_testBit_eq
  intro i
  rw [Nat.testBit_and, Nat.testBit_two_pow]
  by_cases hi : n = i
  · subst hi
    simp [Nat.testBit_lt_two_pow h]
  · simp [hi]

theorem lor_shiftLeft_eq_add {a : Nat} (n b : Nat) (h : a < 2 ^ n) :
    a ||| b <<< n = b <<< n + a := by
  have hmain : b <<< n + a = 2 ^ n * b + a := by
    rw [Nat.shiftLeft_eq]
    ring
  rw [hmain]
  apply Nat.eq_of_testBit_eq
  intro i
  rcases Nat.lt_or_ge i n with hi | hi
  · rw [Nat.testBit_lor, Nat.testBit_shiftLeft, Nat.testBit_mul_pow_two_add b h i]
    simp [hi, Nat.not_le.mpr hi]
  · rw [Nat.testBit_lor, Nat.testBit_shiftLeft, Nat.testBit_mul_pow_two_add b h i]
    have ha : a.testBit i = false :=
      Nat.testBit_lt_two_pow (lt_of_lt_of_le h (Nat.pow_le_pow_right (by norm_num) hi))
    simp [hi, Nat.not_lt.mpr hi, ha]

theorem byte_term_and (x : Nat) : (x &&& 0x7F) &&& 0x80 = 0 := by
  have h1 : x &&& 0x7F < 2 ^ 7 := by
    rw [and_sevenBits_eq_mod]
    exact Nat.mod_lt _ (by norm_num)
  have h2 : (0x80 : Nat) = 2 ^ 7 := by norm_num
  rw [h2]
  exact and_two_pow_eq_zero h1

theorem byte_cont_and (x : Nat) : (x &&& 0x7F ||| 0x80) &&& 0x80 = 0x80 := by
  rw [Nat.and_distrib_right, byte_term_and, Nat.zero_or, Nat.and_self]

theorem byte_cont_low (x : Nat) : (x &&& 0x7F ||| 0x80) &&& 0x7F = x &&& 0x7F := by
  rw [Nat.and_distrib_right, Nat.and_assoc, Nat.and_self]
  have h : (0x80 : Nat) &&& 0x7F = 0 := by decide
  rw [h, Nat.or_zero]

theorem shiftRight_seven_ne_zero {v : Nat} (h : v >>> 7 ≠ 0) : 128 ≤ v := by
  by_contra hlt
  apply h
  rw [shiftRight_seven_eq_div]
  exact Nat.div_eq_of_lt (by omega)

theorem varuintBytesGo_congr :
    ∀ f1 f2 v, v ≤ f1 → v ≤ f2 → varuintBytesGo f1 v = varuintBytesGo f2 v := by
  intro f1
  induction f1 with
  | zero =>
    intro f2 v h1 _
    have hv : v = 0 := by omega
    subst hv
    cases f2 <;> simp [varuintBytesGo]
  | succ f ih =>
    intro f2 v h1 h2
    by_cases h : v >>> 7 = 0
    · cases f2 with
      | zero =>
        have hv : v = 0 := by omega
        subst hv
        simp [varuintBytesGo]
      | succ f2 => simp [varuintBytesGo, h]
    · have hge : 128 ≤ v := shiftRight_seven_ne_zero h
      have hlt : v >>> 7 < v := by
        rw [shiftRight_seven_eq_div]
        exact Nat.div_lt_self (by omega) (by norm_num)
      cases f2 with
      | zero => omega
      | succ f2 =>
        simp only [varuintBytesGo, h, if_neg]
        rw [ih f2 (v >>> 7) (by omega) (by omega)]

theorem varuintBytes_eq (v : Nat) :
    varuintBytes v =
      if v >>> 7 = 0 then [v &&& 0x7F]
      else (v &&& 0x7F ||| 0x80) :: varuintBytes (v >>> 7) := by
  by_cases h : v >>> 7 = 0
  · rw [if_pos h]
    cases v with
    | zero => rfl
    | succ n =>
      rw [varuintBytes]
      simp [varuintBytesGo, h]
  · rw [if_neg h]
    cases v with
    | zero => exact absurd rfl h
    | succ n =>
      have hlt : (n + 1) >>> 7 < n + 1 := by
        rw [shiftRight_seven_eq_div]
        exact Nat.div_lt_self (by omega) (by norm_num)
      rw [varuintBytes, varuintBytes]
      simp only [varuintBytesGo]
      rw [if_neg h]
      exact congrArg _ (varuintBytesGo_congr n ((n + 1) >>> 7) ((n + 1) >>> 7) (by omega) le_rfl)

theorem varuintBytes_ne_nil (v : Nat) : varuintBytes v ≠ [] := by
  rw [varuintBytes_eq]
  by_cases h : v >>> 7 = 0 <;> simp [h]

theorem shiftRight_seven_lt {v : Nat} (h : v ≠ 0) : v >>> 7 < v := by
  rw [shiftRight_seven_eq_div]
  exact Nat.div_lt_self (Nat.pos_of_ne_zero h) (by norm_num)

theorem isTermVarint_varuintBytes (v : Nat) : isTermVarint (varuintBytes v) = true := by
  induction v using Nat.strong_induction_on with
  | _ v ih =>
    rw [varuintBytes_eq]
    by_cases h : v >>> 7 = 0
    · simp [h, isTermVarint, byte_term_and]
    · rw [if_neg h]
      have hge : 128 ≤ v := shiftRight_seven_ne_zero h
      have ihh := ih (v >>> 7) (shiftRight_seven_lt (by omega))
      cases hb : varuintBytes (v >>> 7) with
      | nil => exact absurd hb (varuintBytes_ne_nil _)
      | cons x xs =>
        rw [hb] at ihh
        simp [isTermVarint, byte_cont_and, ihh]

theorem readVaruintAux_cons (w x : Nat) (rest : List Nat) (res shift : Nat) :
    readVaruintAux w (x :: rest) res shift =
      (let res1 := if shift < w then res ||| ((x &&& 0x7F) <<< shift % 2 ^ w) else res
       if x &&& 0x80 = 0 then .ok (res1, rest)
       else readVaruintAux w rest res1 (shift + 7)) := rfl

theorem readVaruintAux_varuint (w : Nat) :
    ∀ v res shift rest, res < 2 ^ shift → v * 2 ^ shift < 2 ^ w →
      readVaruintAux w (varuintBytes v ++ rest) res shift = .ok (res + v * 2 ^ shift, rest) := by
  intro v
  induction v using Nat.strong_induction_on with
  | _ v ih =>
    intro res shift rest hres hv
    rw [varuintBytes_eq]
    by_cases h : v >>> 7 = 0
    · have hv128 : v < 128 := by
        by_contra hge
        have : 1 ≤ v / 128 := Nat.one_le_div_iff (by norm_num) |>.mpr (by omega)
        rw [shiftRight_seven_eq_div] at h
        omega
      rw [if_pos h, List.singleton_append, readVaruintAux_cons]
      simp only [byte_term_and, if_pos, reduceIte]
      have hand : v &&& 0x7F = v := by
        rw [and_sevenBits_eq_mod]
        exact Nat.mod_eq_of_lt hv128
      have haa : (v &&& 0x7F) &&& 0x7F = v := by rw [Nat.and_assoc, Nat.and_self, hand]
      by_cases hsw : shift < w
      · rw [if_pos hsw, haa]
        have hlt : v <<< shift < 2 ^ w := by
          rw [Nat.shiftLeft_eq]
          exact hv
        rw [Nat.mod_eq_of_lt hlt, lor_shiftLeft_eq_add shift v hres, Nat.shiftLeft_eq]
        rw [Nat.add_comm]
      · rw [if_neg hsw]
        have hvz : v = 0 := by
          by_contra hnz
          have h1 : 2 ^ shift ≤ v * 2 ^ shift :=
            Nat.le_mul_of_pos_left _ (Nat.pos_of_ne_zero hnz)
          have h2 : 2 ^ w ≤ 2 ^ shift :=
            Nat.pow_le_pow_right (by norm_num) (by omega)
          omega
        subst hvz
        simp
    · have hge : 128 ≤ v := shiftRight_seven_ne_zero h
      rw [if_neg h, List.cons_append, readVaruintAux_cons]
      simp only [byte_cont_low]
      have hcont : (v &&& 0x7F ||| 0x80) &&& 0x80 ≠ 0 := by
        rw [byte_cont_and]
        norm_num
      rw [if_neg hcont]
      have hm : v &&& 0x7F = v % 128 := and_sevenBits_eq_mod v
      have hpow : (2 : Nat) ^ (shift + 7) = 2 ^ shift * 128 := by
        rw [pow_add]
        norm_num
      have hsw7 : 2 ^ (shift + 7) ≤ 2 ^ w := by
        calc (2 : Nat) ^ (shift + 7) = 2 ^ shift * 128 := hpow
          _ ≤ 2 ^ shift * v := Nat.mul_le_mul_left _ hge
          _ = v * 2 ^ shift := Nat.mul_comm _ _
          _ ≤ 2 ^ w := Nat.le_of_lt hv
    -- the continuation byte is consumed with shift < w
      have hsw : shift < w := by
        have h2lt : (1 : Nat) < 2 := by norm_num
        have := (Nat.pow_le_pow_iff_right h2lt).mp hsw7
        omega
      rw [if_pos hsw, hm]
      have hgrp : (v % 128) <<< shift < 2 ^ w := by
        rw [Nat.shiftLeft_eq]
        calc (v % 128) * 2 ^ shift < 128 * 2 ^ shift :=
              (Nat.mul_lt_mul_right (Nat.two_pow_pos shift)).mpr (Nat.mod_lt _ (by norm_num))
          _ = 2 ^ (shift + 7) := by rw [hpow]; ring
          _ ≤ 2 ^ w := hsw7
      rw [Nat.mod_eq_of_lt hgrp, lor_shiftLeft_eq_add shift (v % 128) hres, Nat.shiftLeft_eq]
      have hres1 : (v % 128) * 2 ^ shift + res < 2 ^ (shift + 7) := by
        have h1 : (v % 128) * 2 ^ shift ≤ 127 * 2 ^ shift :=
          Nat.mul_le_mul_right _ (by omega)
        have h2 : (127 : Nat) * 2 ^ shift + 2 ^ shift = 2 ^ (shift + 7) := by
          rw [hpow]
          ring
        omega
      have hvrec : (v >>> 7) * 2 ^ (shift + 7) < 2 ^ w := by
        rw [shiftRight_seven_eq_div, hpow, ← Nat.mul_assoc, Nat.mul_comm (v / 128) (2 ^ shift),
          Nat.mul_assoc]
        calc 2 ^ shift * (v / 128 * 128) ≤ 2 ^ shift * v :=
              Nat.mul_le_mul_left _ (Nat.div_mul_le_self v 128)
          _ = v * 2 ^ shift := Nat.mul_comm _ _
          _ < 2 ^ w := hv
      rw [ih (v >>> 7) (shiftRight_seven_lt (by omega)) _ _ rest hres1 hvrec]
      have harith : (v % 128) * 2 ^ shift + res + (v >>> 7) * 2 ^ (shift + 7) =
          res + v * 2 ^ shift := by
        rw [shiftRight_seven_eq_div, hpow, ← Nat.mul_assoc]
        have hdm : v % 128 + v / 128 * 128 = v := Nat.mod_add_div' v 128
        calc (v % 128) * 2 ^ shift + res + v / 128 * 2 ^ shift * 128
            = res + (v % 128 + v / 128 * 128) * 2 ^ shift := by ring
          _ = res + v * 2 ^ shift := by rw [hdm]
      rw [harith]

theorem readVaruintAux_term (w : Nat) :
    ∀ bs rest res shift, isTermVarint bs = true →
      readVaruintAux w (bs ++ rest) res shift =
        .ok (res ||| assembleVaruint w bs shift, rest) := by
  intro bs
  induction bs with
  | nil => intro rest res shift h; simp [isTermVarint] at h
  | cons b bs ih =>
    intro rest res shift h
    cases bs with
    | nil =>
      simp only [isTermVarint, decide_eq_true_eq] at h
      rw [List.cons_append, List.nil_append, readVaruintAux_cons]
      simp only [h, if_pos, reduceIte]
      rw [assembleVaruint, assembleVaruint, Nat.or_zero]
      by_cases hsw : shift < w
      · rw [if_pos hsw, if_pos hsw]
      · rw [if_neg hsw, if_neg hsw, Nat.or_zero]
    | cons b2 bs2 =>
      simp only [isTermVarint, Bool.and_eq_true, decide_eq_true_eq] at h
      rw [List.cons_append, readVaruintAux_cons]
      simp only []
      rw [if_neg h.1, ih rest _ _ h.2]
      conv_rhs => rw [assembleVaruint]
      by_cases hsw : shift < w
      · rw [if_pos hsw, if_pos hsw, Nat.or_assoc]
      · rw [if_neg hsw, if_neg hsw, Nat.zero_or]

theorem assembleVaruint_varuintBytes {w v : Nat} (h : v < 2 ^ w) :
    assembleVaruint w (varuintBytes v) 0 = v := by
  have h1 := readVaruintAux_varuint w v 0 0 [] (by norm_num) (by simpa using h)
  have h2 := readVaruintAux_term w (varuintBytes v) [] 0 0 (isTermVarint_varuintBytes v)
  rw [h1] at h2
  have hpair := RRes.ok.inj h2
  have hval := congrArg Prod.fst hpair
  simp at hval
  omega

theorem readVaruintAux_shrink (w : Nat) :
    ∀ data res shift v rest, readVaruintAux w data res shift = .ok (v, rest) →
      rest.length < data.length := by
  intro data
  induction data with
  | nil => intro res shift v rest h; exact absurd h (by simp [readVaruintAux])
  | cons x tail ih =>
    intro res shift v rest h
    rw [readVaruintAux_cons] at h
    simp only [] at h
    by_cases hx : x &&& 0x80 = 0
    · rw [if_pos hx] at h
      have := (RRes.ok.inj h)
      have hrest : rest = tail := (congrArg Prod.snd this).symm
      subst hrest
      simp
    · rw [if_neg hx] at h
      have := ih _ _ _ _ h
      simp
      omega

theorem readVaruintAux_append (w : Nat) :
    ∀ data res shift v rest e, readVaruintAux w data res shift = .ok (v, rest) →
      readVaruintAux w (data ++ e) res shift = .ok (v, rest ++ e) := by
  intro data
  induction data with
  | nil => intro res shift v rest e h; exact absurd h (by simp [readVaruintAux])
  | cons x tail ih =>
    intro res shift v rest e h
    rw [readVaruintAux_cons] at h
    simp only [] at h
    rw [List.cons_append, readVaruintAux_cons]
    simp only []
    by_cases hx : x &&& 0x80 = 0
    · rw [if_pos hx] at h ⊢
      have hp := RRes.ok.inj h
      have hv : v = (if shift < w then res ||| (x &&& 127) <<< shift % 2 ^ w else res) :=
        (congrArg Prod.fst hp).symm
      have hrest : rest = tail := (congrArg Prod.snd hp).symm
      rw [hv, hrest]
    · rw [if_neg hx] at h ⊢
      exact ih _ _ _ _ e h

theorem readVaruintAux_allCont (w : Nat) :
    ∀ data res shift, (∀ b ∈ data, b &&& 0x80 ≠ 0) →
      readVaruintAux w data res shift = .err := by
  intro data
  induction data with
  | nil => intro res shift _; rfl
  | cons x tail ih =>
    intro res shift h
    rw [readVaruintAux_cons]
    simp only []
    rw [if_neg (h x (by simp))]
    exact ih _ _ (fun b hb => h b (by simp [hb]))

theorem readVaruintBytesAux_term :
    ∀ bs rest, isTermVarint bs = true →
      readVaruintBytesAux (bs ++ rest) = some (bs, rest) := by
  intro bs
  induction bs with
  | nil => intro rest h; simp [isTermVarint] at h
  | cons b bs ih =>
    intro rest h
    cases bs with
    | nil =>
      simp only [isTermVarint, decide_eq_true_eq] at h
      simp [readVaruintBytesAux, h]
    | cons b2 bs2 =>
      simp only [isTermVarint, Bool.and_eq_true, decide_eq_true_eq] at h
      rw [List.cons_append, readVaruintBytesAux]
      rw [if_neg h.1, ih rest h.2]

theorem readVaruintBytesAux_shrink :
    ∀ data vb rest, readVaruintBytesAux data = some (vb, rest) →
      rest.length < data.length := by
  intro data
  induction data with
  | nil => intro vb rest h; exact absurd h (by simp [readVaruintBytesAux])
  | cons x tail ih =>
    intro vb rest h
    rw [readVaruintBytesAux] at h
    by_cases hx : x &&& 0x80 = 0
    · rw [if_pos hx] at h
      have := Option.some.inj h
      have hrest : rest = tail := (congrArg Prod.snd this).symm
      subst hrest
      simp
    · rw [if_neg hx] at h
      cases hrec : readVaruintBytesAux tail with
      | none => rw [hrec] at h; exact absurd h (by simp)
      | some p =>
        rw [hrec] at h
        obtain ⟨v1, r1⟩ := p
        have := Option.some.inj h
        have hrest : rest = r1 := (congrArg Prod.snd this).symm
        subst hrest
        have := ih _ _ hrec
        simp
        omega

theorem readVaruintBytesAux_append :
    ∀ data vb rest e, readVaruintBytesAux data = some (vb, rest) →
      readVaruintBytesAux (data ++ e) = some (vb, rest ++ e) := by
  intro data
  induction data with
  | nil => intro vb rest e h; exact absurd h (by simp [readVaruintBytesAux])
  | cons x tail ih =>
    intro vb rest e h
    rw [readVaruintBytesAux] at h
    rw [List.cons_append, readVaruintBytesAux]
    by_cases hx : x &&& 0x80 = 0
    · rw [if_pos hx] at h ⊢
      have hp := Option.some.inj h
      have hvb : vb = [x] := (congrArg Prod.fst hp).symm
      have hrest : rest = tail := (congrArg Prod.snd hp).symm
      rw [hvb, hrest]
    · rw [if_neg hx] at h ⊢
      cases hrec : readVaruintBytesAux tail with
      | none => rw [hrec] at h; exact absurd h (by simp)
      | some p =>
        obtain ⟨v1, r1⟩ := p
        rw [hrec] at h
        have hp := Option.some.inj h
        have hvb : vb = x :: v1 := (congrArg Prod.fst hp).symm
        have hrest : rest = r1 := (congrArg Prod.snd hp).symm
        rw [ih _ _ e hrec, hvb, hrest]

theorem readVaruintBytesAux_allCont :
    ∀ data, (∀ b ∈ data, b &&& 0x80 ≠ 0) → readVaruintBytesAux data = none := by
  intro data
  induction data with
  | nil => intro _; rfl
  | cons x tail ih =>
    intro h
    rw [readVaruintBytesAux, if_neg (h x (by simp)), ih (fun b hb => h b (by simp [hb]))]

theorem varuintBytes_minimal (v : Nat) :
    v < 2 ^ (7 * (varuintBytes v).length) ∧
      ((varuintBytes v).length = 1 ∨ 2 ^ (7 * ((varuintBytes v).length - 1)) ≤ v) := by
  induction v using Nat.strong_induction_on with
  | _ v ih =>
    rw [varuintBytes_eq]
    by_cases h : v >>> 7 = 0
    · have hv128 : v < 128 := by
        by_contra hge
        have : 1 ≤ v / 128 := Nat.one_le_div_iff (by norm_num) |>.mpr (by omega)
        rw [shiftRight_seven_eq_div] at h
        omega
      rw [if_pos h]
      constructor
      · simpa using hv128
      · left; rfl
    · have hge : 128 ≤ v := shiftRight_seven_ne_zero h
      rw [if_neg h]
      obtain ⟨ih1, ih2⟩ := ih (v >>> 7) (shiftRight_seven_lt (by omega))
      have hLpos : 1 ≤ (varuintBytes (v >>> 7)).length := by
        cases hb : varuintBytes (v >>> 7) with
        | nil => exact absurd hb (varuintBytes_ne_nil _)
        | cons x xs => simp
      rw [shiftRight_seven_eq_div] at ih1 ih2 hLpos
      simp only [List.length_cons, shiftRight_seven_eq_div]
      set L := (varuintBytes (v / 128)).length with hL
      constructor
      · have hpow : (128 : Nat) * 2 ^ (7 * L) = 2 ^ (7 * (L + 1)) := by
          rw [Nat.mul_add, Nat.mul_one, pow_add]
          ring
        have hmul : 128 * (v / 128 + 1) ≤ 128 * 2 ^ (7 * L) := by omega
        omega
      · right
        rcases ih2 with h1 | h2
        · rw [h1]
          have h128 : (2 : Nat) ^ (7 * (1 + 1 - 1)) = 128 := by norm_num
          omega
        · have hpow : (2 : Nat) ^ (7 * (L + 1 - 1)) = 128 * 2 ^ (7 * (L - 1)) := by
            have h7 : 7 * (L + 1 - 1) = 7 * (L - 1) + 7 := by omega
            rw [h7, pow_add]
            ring
          have hdiv : v / 128 * 128 ≤ v := Nat.div_mul_le_self v 128
          have hsplit : 128 * 2 ^ (7 * (L - 1)) ≤ 128 * (v / 128) := by omega
          omega

theorem varuintBytes_length_le {v k : Nat} (hk : 1 ≤ k) (h : v < 2 ^ (7 * k)) :
    (varuintBytes v).length ≤ k := by
  obtain ⟨h1, h2⟩ := varuintBytes_minimal v
  rcases h2 with hl | hl
  · omega
  · by_contra hgt
    have : 7 * k ≤ 7 * ((varuintBytes v).length - 1) := by omega
    have : (2 : Nat) ^ (7 * k) ≤ 2 ^ (7 * ((varuintBytes v).length - 1)) :=
      Nat.pow_le_pow_right (by norm_num) this
    omega

theorem xor_high_bit_eq_add {p n : Nat} (h : p < 2 ^ n) : p ^^^ 2 ^ n = 2 ^ n + p := by
  have hrhs : 2 ^ n + p = 2 ^ n * 1 + p := by ring
  rw [hrhs]
  apply Nat.eq_of_testBit_eq
  intro i
  rw [Nat.testBit_xor, Nat.testBit_mul_pow_two_add 1 h i]
  by_cases hni : n = i
  · subst hni
    have hp : p.testBit n = false := Nat.testBit_lt_two_pow h
    have h0 : Nat.testBit 1 (n - n) = true := by
      simp
    simp [hp, Nat.testBit_two_pow, h0]
  · by_cases hi : i < n
    · have hn2 : Nat.testBit (2 ^ n) i = false := by
        rw [Nat.testBit_two_pow]
        simp [hni]
      simp [hi, hn2]
    · have hp : p.testBit i = false :=
        Nat.testBit_lt_two_pow
          (lt_of_lt_of_le h (Nat.pow_le_pow_right (by norm_num) (by omega)))
      have hn2 : Nat.testBit (2 ^ n) i = false := by
        rw [Nat.testBit_two_pow]
        simp [hni]
      have h1 : Nat.testBit 1 (i - n) = false := by
        rw [show (1 : Nat) = 2 ^ 0 by norm_num, Nat.testBit_two_pow]
        simp
        omega
      simp [hi, hp, hn2, h1]

theorem xor_halves {w : Nat} (hw : 1 ≤ w) :
    (2 ^ (w - 1) - 1) ^^^ (2 ^ w - 1) = 2 ^ (w - 1) := by
  apply Nat.eq_of_testBit_eq
  intro i
  rw [Nat.testBit_xor, Nat.testBit_two_pow_sub_one, Nat.testBit_two_pow_sub_one,
    Nat.testBit_two_pow]
  by_cases h1 : i < w - 1
  · have h2 : i < w := by omega
    have h3 : w - 1 ≠ i := by omega
    simp [h1, h2, h3]
  · by_cases h2 : i < w
    · have h3 : w - 1 = i := by omega
      simp [h1, h2, h3]
    · have h3 : w - 1 ≠ i := by omega
      simp [h1, h2, h3]

theorem zigzagPattern_lt (w : Nat) (v : Int) : zigzagPattern w v < 2 ^ w := by
  unfold zigzagPattern
  have h1 : (2 * toUW w v) % 2 ^ w < 2 ^ w := Nat.mod_lt _ (Nat.two_pow_pos w)
  by_cases hv : v < 0
  · rw [if_pos hv]
    exact Nat.xor_lt_two_pow h1 (by have := Nat.two_pow_pos w; omega)
  · rw [if_neg hv]
    simpa using h1

theorem unzigzag_zigzagPattern {w : Nat} (hw : 1 ≤ w) {v : Int}
    (h1 : -(2 ^ (w - 1) : Int) ≤ v) (h2 : v < 2 ^ (w - 1)) :
    unzigzag w (zigzagPattern w v) = v := by
  have hpw : (2 : Nat) ^ w = 2 ^ (w - 1) * 2 := by
    conv_lhs => rw [show w = (w - 1) + 1 by omega]
    rw [pow_succ]
  have hcastH : ((2 ^ (w - 1) : Nat) : Int) = 2 ^ (w - 1) := by push_cast; ring
  have hcastW : ((2 ^ w : Nat) : Int) = 2 ^ w := by push_cast; ring
  by_cases hv : v < 0
  · -- negative values: pattern 2 ^ w - 2n, zigzag via complement
    set n := (-v).toNat with hn
    have hvn : v = -(n : Int) := by
      rw [hn]
      omega
    have hn1 : 1 ≤ n := by omega
    have hn2 : n ≤ 2 ^ (w - 1) := by
      have : (n : Int) ≤ (2 ^ (w - 1) : Nat) := by
        rw [hcastH]
        omega
      exact_mod_cast this
    have hnw : n ≤ 2 ^ w := by omega
    -- the two's-complement pattern of v is 2 ^ w - n
    have hmod : v % ((2 : Int) ^ w) = v + 2 ^ w := by
      have e1 : (v + 2 ^ w * 1) % ((2 : Int) ^ w) = v % 2 ^ w :=
        Int.add_mul_emod_self_left v (2 ^ w) 1
      have e2 : v + 2 ^ w * 1 = v + 2 ^ w := by ring
      rw [e2] at e1
      rw [← e1]
      apply Int.emod_eq_of_lt
      · have : ((2 ^ w : Nat) : Int) = 2 ^ w := hcastW
        omega
      · omega
    have htoUW : toUW w v = 2 ^ w - n := by
      rw [toUW, hmod]
      have : v + 2 ^ w = ((2 ^ w - n : Nat) : Int) := by
        rw [Nat.cast_sub hnw, hcastW]
        omega
      rw [this, Int.toNat_natCast]
    -- the shifted pattern is 2 ^ w - 2n
    have hq : (2 * toUW w v) % 2 ^ w = 2 ^ w - 2 * n := by
      rw [htoUW]
      have hgt : 2 * (2 ^ w - n) = 2 ^ w + (2 ^ w - 2 * n) := by omega
      rw [hgt, Nat.add_mod_left]
      exact Nat.mod_eq_of_lt (by omega)
    rw [unzigzag, zigzagPattern, if_pos hv, hq]
    have hqeven : (2 ^ w - 2 * n) % 2 = 0 := by omega
    have hModd : (2 ^ w - 1) % 2 = 1 := by omega
    have hparity : ((2 ^ w - 2 * n) ^^^ (2 ^ w - 1)) % 2 = 1 := by
      rw [Nat.xor_mod_two_eq_one]
      omega
    rw [if_pos hparity]
    have hshift : ((2 ^ w - 2 * n) ^^^ (2 ^ w - 1)) >>> 1 =
        (2 ^ (w - 1) - n) ^^^ (2 ^ (w - 1) - 1) := by
      rw [Nat.shiftRight_eq_div_pow]
      have hp1 : (2 : Nat) ^ 1 = 2 := by norm_num
      rw [hp1, Nat.xor_div_two]
      have hd1 : (2 ^ w - 2 * n) / 2 = 2 ^ (w - 1) - n := by omega
      have hd2 : (2 ^ w - 1) / 2 = 2 ^ (w - 1) - 1 := by omega
      rw [hd1, hd2]
    rw [hshift, Nat.xor_assoc, xor_halves hw]
    have hlow : 2 ^ (w - 1) - n < 2 ^ (w - 1) := by omega
    rw [xor_high_bit_eq_add hlow, fromUW]
    have hge : ¬(2 ^ (w - 1) + (2 ^ (w - 1) - n) < 2 ^ (w - 1)) := by omega
    rw [if_neg hge]
    have : ((2 ^ (w - 1) + (2 ^ (w - 1) - n) : Nat) : Int) = 2 ^ w - n := by
      push_cast [Nat.cast_sub hn2]
      have : ((2 ^ (w - 1) : Nat) : Int) = 2 ^ (w - 1) := hcastH
      omega
    rw [this]
    omega
  · -- nonnegative values: pattern 2v, zigzag is the identity shift
    push_neg at hv
    set vN := v.toNat with hvN
    have hcast : (vN : Int) = v := Int.toNat_of_nonneg hv
    have hvNlt : vN < 2 ^ (w - 1) := by
      have : (vN : Int) < ((2 ^ (w - 1) : Nat) : Int) := by
        rw [hcastH, hcast]
        exact h2
      exact_mod_cast this
    have hmod : v % ((2 : Int) ^ w) = v := by
      apply Int.emod_eq_of_lt hv
      have : ((2 ^ w : Nat) : Int) = 2 ^ w := hcastW
      omega
    have htoUW : toUW w v = vN := by rw [toUW, hmod, hvN]
    have hnotneg : ¬v < 0 := by omega
    rw [unzigzag, zigzagPattern, if_neg hnotneg, htoUW, Nat.xor_zero]
    have h2v : 2 * vN % 2 ^ w = 2 * vN := Nat.mod_eq_of_lt (by omega)
    rw [h2v]
    have heven : ¬(2 * vN % 2 = 1) := by omega
    rw [if_neg heven, Nat.shiftRight_eq_div_pow]
    have hp1 : (2 : Nat) ^ 1 = 2 := by norm_num
    have hdiv : 2 * vN / 2 = vN := by omega
    rw [hp1, hdiv, Nat.xor_zero, fromUW, if_pos hvNlt, hcast]

theorem length_splice {buf bs : List Nat} {p : Nat} (h : p + bs.length ≤ buf.length) :
    (splice buf p bs).length = buf.length := by
  rw [splice]
  simp only [List.length_append, List.length_take, List.length_drop]
  omega

theorem splice_take {buf bs : List Nat} {p : Nat} (h : p ≤ buf.length) :
    (splice buf p bs).take p = buf.take p := by
  rw [splice, List.append_assoc]
  exact List.take_left' (by rw [List.length_take]; omega)

theorem splice_drop {buf bs : List Nat} {p : Nat} (h : p ≤ buf.length) :
    (splice buf p bs).drop p = bs ++ buf.drop (p + bs.length) := by
  rw [splice, List.append_assoc]
  exact List.drop_left' (by rw [List.length_take]; omega)

theorem splice_splice {buf bs1 bs2 : List Nat} {p : Nat} (h : p ≤ buf.length) :
    splice (splice buf p bs1) (p + bs1.length) bs2 = splice buf p (bs1 ++ bs2) := by
  have htl : (buf.take p ++ bs1).length = p + bs1.length := by
    rw [List.length_append, List.length_take]
    omega
  rw [splice, splice, splice, ← List.append_assoc]
  rw [List.take_left' htl]
  have hdrop : ((buf.take p ++ bs1) ++ buf.drop (p + bs1.length)).drop
      (p + bs1.length + bs2.length) = buf.drop (p + (bs1 ++ bs2).length) := by
    have := @List.drop_append _ (buf.take p ++ bs1) (buf.drop (p + bs1.length)) bs2.length
    rw [htl] at this
    rw [this, List.drop_drop, List.length_append]
    ring_nf
  rw [hdrop]

theorem write_ok {w : ByteWriter} {bs : List Nat}
    (h : w.pos + bs.length ≤ w.buf.length) :
    w.write bs = .ok ⟨splice w.buf w.pos bs, w.pos + bs.length⟩ := by
  rw [ByteWriter.write, if_neg (by omega)]

theorem write_err {w : ByteWriter} {bs : List Nat}
    (h : w.buf.length - w.pos < bs.length) :
    w.write bs = .err := by
  rw [ByteWriter.write, if_pos h]

theorem write_varuintCore_ok :
    ∀ (v : Nat) (w : ByteWriter), w.pos + (varuintBytes v).length ≤ w.buf.length →
      w.write_varuintCore v =
        .ok ⟨splice w.buf w.pos (varuintBytes v), w.pos + (varuintBytes v).length⟩ := by
  intro v
  induction v using Nat.strong_induction_on with
  | _ v ih =>
    intro w hroom
    rw [ByteWriter.write_varuintCore]
    by_cases h : v >>> 7 = 0
    · rw [if_neg (by simpa using h)]
      have hb : varuintBytes v = [v &&& 0x7F] := by rw [varuintBytes_eq, if_pos h]
      rw [hb] at hroom ⊢
      exact write_ok (by simpa using hroom)
    · rw [if_pos (by simpa using h)]
      have hb : varuintBytes v = (v &&& 0x7F ||| 0x80) :: varuintBytes (v >>> 7) := by
        rw [varuintBytes_eq, if_neg h]
      rw [hb] at hroom
      simp only [List.length_cons] at hroom
      have h1 : w.pos + 1 ≤ w.buf.length := by omega
      rw [ByteWriter.write_u8, write_ok (by simpa using h1)]
      have hge : 128 ≤ v := shiftRight_seven_ne_zero h
      simp only [List.length_singleton]
      have hrec := ih (v >>> 7) (shiftRight_seven_lt (by omega))
        ⟨splice w.buf w.pos [v &&& 0x7F ||| 0x80], w.pos + 1⟩
        (by
          show w.pos + 1 + (varuintBytes (v >>> 7)).length ≤
            (splice w.buf w.pos [v &&& 0x7F ||| 0x80]).length
          rw [length_splice (by simpa using h1)]
          omega)
      rw [hrec]
      have hsp : splice (splice w.buf w.pos [v &&& 0x7F ||| 0x80]) (w.pos + 1)
          (varuintBytes (v >>> 7)) = splice w.buf w.pos (varuintBytes v) := by
        have := @splice_splice w.buf [v &&& 0x7F ||| 0x80] (varuintBytes (v >>> 7)) w.pos
          (by omega)
        simp only [List.length_cons, List.length_nil, List.singleton_append,
          Nat.zero_add] at this
        rw [← hb] at this
        exact this
      rw [hsp, hb]
      simp only [List.length_cons]
      congr 2
      omega

theorem splice_of_parts {A M D hdr : List Nat} {start : Nat}
    (hA : A.length = start + hdr.length) :
    splice (A ++ (M ++ D)) start hdr = A.take start ++ hdr ++ (M ++ D) := by
  rw [splice]
  rw [List.take_append_of_le_length (by omega)]
  rw [List.drop_left' hA]

theorem splice_copyWithin {B hdr : List Nat} {start p1 : Nat}
    (h1 : start ≤ p1) (h2 : p1 + hdr.length ≤ B.length) :
    splice (copyWithin B start p1 (start + hdr.length)) start hdr =
      B.take start ++ hdr ++ (B.drop start).take (p1 - start) ++
        B.drop (p1 + hdr.length) := by
  have hBlen : start + hdr.length ≤ B.length := by omega
  have htakeA : (B.take (start + hdr.length)).length = start + hdr.length := by
    rw [List.length_take]
    omega
  rw [copyWithin, List.append_assoc, splice_of_parts htakeA]
  have ht : (B.take (start + hdr.length)).take start = B.take start := by
    rw [List.take_take]
    have hmin : min start (start + hdr.length) = start := by omega
    rw [hmin]
  rw [ht]
  have hidx : start + hdr.length + (p1 - start) = p1 + hdr.length := by omega
  rw [hidx]
  simp [List.append_assoc]

theorem write_length_delimited_spec {w w1 : ByteWriter} {f : ByteWriter → WRes ByteWriter}
    (hf : f w = .ok w1) (hmono : w.pos ≤ w1.pos) (hbound : w1.pos ≤ w1.buf.length)
    (hlen : w1.pos - w.pos < 2 ^ 32)
    (hroom : (varuintBytes (w1.pos - w.pos)).length ≤ w1.buf.length - w1.pos) :
    w.write_length_delimited f =
      .ok ⟨w1.buf.take w.pos ++ varuintBytes (w1.pos - w.pos) ++
             (w1.buf.drop w.pos).take (w1.pos - w.pos) ++
             w1.buf.drop (w1.pos + (varuintBytes (w1.pos - w.pos)).length),
           w1.pos + (varuintBytes (w1.pos - w.pos)).length⟩ := by
  have h5 : (varuintBytes (w1.pos - w.pos)).length ≤ 5 :=
    varuintBytes_length_le (by norm_num)
      (by
        calc w1.pos - w.pos < 2 ^ 32 := hlen
          _ ≤ 2 ^ (7 * 5) := by norm_num)
  have hscr := write_varuintCore_ok (w1.pos - w.pos) ⟨List.replicate 16 0, 0⟩
    (by
      show 0 + (varuintBytes (w1.pos - w.pos)).length ≤ (List.replicate 16 0).length
      rw [List.length_replicate]
      omega)
  have hheader : (splice (List.replicate 16 0) 0 (varuintBytes (w1.pos - w.pos))).take
      (0 + (varuintBytes (w1.pos - w.pos)).length) = varuintBytes (w1.pos - w.pos) := by
    rw [splice, List.take_zero, List.nil_append, Nat.zero_add]
    exact List.take_left _ _
  rw [ByteWriter.write_length_delimited]
  simp only [hf, hscr, if_pos hlen]
  rw [hheader]
  rw [if_neg (by omega)]
  rw [splice_copyWithin hmono (by omega)]

theorem splice_take_pre {buf bs : List Nat} {p : Nat} (h : p ≤ buf.length) :
    (splice buf p bs).take (p + bs.length) = buf.take p ++ bs := by
  rw [splice]
  exact List.take_left' (by rw [List.length_append, List.length_take]; omega)

theorem splice_drop_beyond {buf bs : List Nat} {p k : Nat} (h : p ≤ buf.length) :
    (splice buf p bs).drop (p + bs.length + k) = buf.drop (p + bs.length + k) := by
  rw [splice]
  have hlen : (buf.take p ++ bs).length = p + bs.length := by
    rw [List.length_append, List.length_take]
    omega
  have hd := @List.drop_append _ (buf.take p ++ bs) (buf.drop (p + bs.length)) k
  rw [hlen] at hd
  rw [hd, List.drop_drop]

theorem write_length_delimited_body {w : ByteWriter} {f : ByteWriter → WRes ByteWriter}
    {body : List Nat}
    (hpos : w.pos ≤ w.buf.length)
    (hf : f w = .ok ⟨splice w.buf w.pos body, w.pos + body.length⟩)
    (hlenb : body.length < 2 ^ 32)
    (hroom : w.pos + body.length + (varuintBytes body.length).length ≤ w.buf.length) :
    w.write_length_delimited f =
      .ok ⟨splice w.buf w.pos (varuintBytes body.length ++ body),
           w.pos + (varuintBytes body.length ++ body).length⟩ := by
  have hsplen : (splice w.buf w.pos body).length = w.buf.length := length_splice (by omega)
  have he : w.pos + body.length - w.pos = body.length := by omega
  have hspec := write_length_delimited_spec hf (Nat.le_add_right w.pos body.length)
    (by
      show w.pos + body.length ≤ (splice w.buf w.pos body).length
      rw [hsplen]
      omega)
    (by
      show w.pos + body.length - w.pos < 2 ^ 32
      omega)
    (by
      show (varuintBytes (w.pos + body.length - w.pos)).length ≤
        (splice w.buf w.pos body).length - (w.pos + body.length)
      rw [he, hsplen]
      omega)
  rw [hspec]
  have hb1 : (splice w.buf w.pos body).take w.pos = w.buf.take w.pos := splice_take hpos
  have hb2 : (splice w.buf w.pos body).drop w.pos =
      body ++ w.buf.drop (w.pos + body.length) := splice_drop hpos
  have hb3 : (splice w.buf w.pos body).drop
      (w.pos + body.length + (varuintBytes body.length).length) =
      w.buf.drop (w.pos + body.length + (varuintBytes body.length).length) :=
    splice_drop_beyond hpos
  show WRes.ok (⟨(splice w.buf w.pos body).take w.pos ++
        varuintBytes (w.pos + body.length - w.pos) ++
        ((splice w.buf w.pos body).drop w.pos).take (w.pos + body.length - w.pos) ++
        (splice w.buf w.pos body).drop
          (w.pos + body.length + (varuintBytes (w.pos + body.length - w.pos)).length),
      w.pos + body.length + (varuintBytes (w.pos + body.length - w.pos)).length⟩ :
      ByteWriter) = _
  rw [he, hb1, hb2, hb3]
  rw [List.take_left' rfl]
  rw [splice]
  have hidx : w.pos + body.length + (varuintBytes body.length).length =
      w.pos + (varuintBytes body.length ++ body).length := by
    rw [List.length_append]
    omega
  rw [hidx]
  simp [List.append_assoc]

theorem write_field_varint_spec {α : Type} {impl : MessageImpl α} {tag : Nat} {m : α}
    {w : ByteWriter} {body : List Nat}
    (hwt : impl.wireType = .Varint)
    (hwr : ∀ w' : ByteWriter, w'.pos + body.length ≤ w'.buf.length →
      impl.write_raw m w' = .ok ⟨splice w'.buf w'.pos body, w'.pos + body.length⟩)
    (hroom : w.pos +
      (varuintBytes (tag <<< 3 % 2 ^ 32 ||| impl.wireType.toNum) ++ body).length ≤
        w.buf.length) :
    ByteWriter.write_field impl tag m w =
      .ok ⟨splice w.buf w.pos
             (varuintBytes (tag <<< 3 % 2 ^ 32 ||| impl.wireType.toNum) ++ body),
           w.pos +
             (varuintBytes (tag <<< 3 % 2 ^ 32 ||| impl.wireType.toNum) ++ body).length⟩ := by
  simp only [hwt] at hroom ⊢
  rw [List.length_append] at hroom
  rw [ByteWriter.write_field]
  simp only [hwt]
  have hhdr := write_varuintCore_ok (tag <<< 3 % 2 ^ 32 ||| WireType.Varint.toNum) w (by omega)
  simp only [hhdr]
  have hlenw1 : (splice w.buf w.pos
      (varuintBytes (tag <<< 3 % 2 ^ 32 ||| WireType.Varint.toNum))).length = w.buf.length :=
    length_splice (by omega)
  rw [hwr _ (by
    show w.pos + (varuintBytes (tag <<< 3 % 2 ^ 32 ||| WireType.Varint.toNum)).length +
      body.length ≤ (splice w.buf w.pos
        (varuintBytes (tag <<< 3 % 2 ^ 32 ||| WireType.Varint.toNum))).length
    rw [hlenw1]
    omega)]
  show WRes.ok (⟨splice (splice w.buf w.pos
        (varuintBytes (tag <<< 3 % 2 ^ 32 ||| WireType.Varint.toNum)))
        (w.pos + (varuintBytes (tag <<< 3 % 2 ^ 32 ||| WireType.Varint.toNum)).length) body,
      w.pos + (varuintBytes (tag <<< 3 % 2 ^ 32 ||| WireType.Varint.toNum)).length +
        body.length⟩ : ByteWriter) = _
  rw [splice_splice (by omega)]
  rw [List.length_append]
  congr 2
  omega

theorem write_field_ld_spec {α : Type} {impl : MessageImpl α} {tag : Nat} {m : α}
    {w : ByteWriter} {body : List Nat}
    (hwt : impl.wireType = .LengthDelimited)
    (hwr : ∀ w' : ByteWriter, w'.pos + body.length ≤ w'.buf.length →
      impl.write_raw m w' = .ok ⟨splice w'.buf w'.pos body, w'.pos + body.length⟩)
    (hlenb : body.length < 2 ^ 32)
    (hroom : w.pos +
      (varuintBytes (tag <<< 3 % 2 ^ 32 ||| impl.wireType.toNum) ++
        (varuintBytes body.length ++ body)).length ≤ w.buf.length) :
    ByteWriter.write_field impl tag m w =
      .ok ⟨splice w.buf w.pos
             (varuintBytes (tag <<< 3 % 2 ^ 32 ||| impl.wireType.toNum) ++
               (varuintBytes body.length ++ body)),
           w.pos +
             (varuintBytes (tag <<< 3 % 2 ^ 32 ||| impl.wireType.toNum) ++
               (varuintBytes body.length ++ body)).length⟩ := by
  simp only [hwt] at hroom ⊢
  simp only [List.length_append] at hroom
  rw [ByteWriter.write_field]
  simp only [hwt]
  have hhdr := write_varuintCore_ok
    (tag <<< 3 % 2 ^ 32 ||| WireType.LengthDelimited.toNum) w (by omega)
  simp only [hhdr]
  have hlenw1 : (splice w.buf w.pos
      (varuintBytes (tag <<< 3 % 2 ^ 32 ||| WireType.LengthDelimited.toNum))).length =
      w.buf.length := length_splice (by omega)
  have hbody := @write_length_delimited_body
    ⟨splice w.buf w.pos
        (varuintBytes (tag <<< 3 % 2 ^ 32 ||| WireType.LengthDelimited.toNum)),
      w.pos + (varuintBytes (tag <<< 3 % 2 ^ 32 ||| WireType.LengthDelimited.toNum)).length⟩
    (impl.write_raw m) body
    (by
      show w.pos + (varuintBytes (tag <<< 3 % 2 ^ 32 ||| WireType.LengthDelimited.toNum)).length
        ≤ (splice w.buf w.pos
            (varuintBytes (tag <<< 3 % 2 ^ 32 ||| WireType.LengthDelimited.toNum))).length
      rw [hlenw1]
      omega)
    (hwr _ (by
      show w.pos + (varuintBytes (tag <<< 3 % 2 ^ 32 ||| WireType.LengthDelimited.toNum)).length
        + body.length ≤ (splice w.buf w.pos
          (varuintBytes (tag <<< 3 % 2 ^ 32 ||| WireType.LengthDelimited.toNum))).length
      rw [hlenw1]
      omega))
    hlenb
    (by
      show w.pos + (varuintBytes (tag <<< 3 % 2 ^ 32 ||| WireType.LengthDelimited.toNum)).length
        + body.length + (varuintBytes body.length).length ≤ (splice w.buf w.pos
          (varuintBytes (tag <<< 3 % 2 ^ 32 ||| WireType.LengthDelimited.toNum))).length
      rw [hlenw1]
      omega)
  rw [hbody]
  show WRes.ok (⟨splice (splice w.buf w.pos
        (varuintBytes (tag <<< 3 % 2 ^ 32 ||| WireType.LengthDelimited.toNum)))
        (w.pos + (varuintBytes (tag <<< 3 % 2 ^ 32 ||| WireType.LengthDelimited.toNum)).length)
        (varuintBytes body.length ++ body),
      w.pos + (varuintBytes (tag <<< 3 % 2 ^ 32 ||| WireType.LengthDelimited.toNum)).length +
        (varuintBytes body.length ++ body).length⟩ : ByteWriter) = _
  rw [splice_splice (by omega)]
  simp only [List.length_append]
  congr 2
  omega

theorem splice_nil (buf : List Nat) (p : Nat) : splice buf p [] = buf := by
  rw [splice]
  simp

theorem primImpl_write_raw_ok (t : PrimTy) (v : PrimVal t) (w : ByteWriter)
    (hroom : w.pos + (encodePrim t v).length ≤ w.buf.length) :
    (primImpl t).write_raw v w =
      .ok ⟨splice w.buf w.pos (encodePrim t v), w.pos + (encodePrim t v).length⟩ := by
  cases t with
  | u8T => exact write_varuintCore_ok v w hroom
  | u32T => exact write_varuintCore_ok v w hroom
  | u64T => exact write_varuintCore_ok v w hroom
  | i32T => exact write_varuintCore_ok (zigzagPattern 32 v) w hroom
  | i64T => exact write_varuintCore_ok (zigzagPattern 64 v) w hroom
  | boolT => exact write_varuintCore_ok (if v then 1 else 0) w hroom
  | enumT allowed => exact write_varuintCore_ok v w hroom
  | stringT cap => exact write_ok hroom
  | bytesT cap => exact write_ok hroom

theorem write_field_single_spec (t : PrimTy) (tag : Nat) (v : PrimVal t) (w : ByteWriter)
    (hlenb : (encodePrim t v).length < 2 ^ 32)
    (hroom : w.pos + (encodeFieldSingle t tag v).length ≤ w.buf.length) :
    ByteWriter.write_field (primImpl t) tag v w =
      .ok ⟨splice w.buf w.pos (encodeFieldSingle t tag v),
           w.pos + (encodeFieldSingle t tag v).length⟩ := by
  cases hwt : (primImpl t).wireType with
  | Varint =>
    have henc : encodeFieldSingle t tag v =
        varuintBytes (tag <<< 3 % 2 ^ 32 ||| (primImpl t).wireType.toNum) ++
          encodePrim t v := by
      rw [encodeFieldSingle, headerOf]
      simp only [hwt]
    rw [henc] at hroom ⊢
    exact write_field_varint_spec hwt (fun w1 h1 => primImpl_write_raw_ok t v w1 h1) hroom
  | LengthDelimited =>
    have henc : encodeFieldSingle t tag v =
        varuintBytes (tag <<< 3 % 2 ^ 32 ||| (primImpl t).wireType.toNum) ++
          (varuintBytes (encodePrim t v).length ++ encodePrim t v) := by
      rw [encodeFieldSingle, headerOf]
      simp only [hwt]
    rw [henc] at hroom ⊢
    exact write_field_ld_spec hwt (fun w1 h1 => primImpl_write_raw_ok t v w1 h1) hlenb hroom

theorem encodePrim_le_single (t : PrimTy) (tag : Nat) (v : PrimVal t) :
    (encodePrim t v).length ≤ (encodeFieldSingle t tag v).length := by
  rw [encodeFieldSingle]
  cases hwt : (primImpl t).wireType <;> simp only [hwt, List.length_append] <;> omega

theorem writeRepeatedList_spec (t : PrimTy) (tag : Nat) :
    ∀ (xs : List (PrimVal t)) (w : ByteWriter),
      w.buf.length < 2 ^ 32 →
      w.pos + ((xs.map (encodeFieldSingle t tag)).flatten).length ≤ w.buf.length →
      writeRepeatedList (primImpl t) tag xs w =
        .ok ⟨splice w.buf w.pos ((xs.map (encodeFieldSingle t tag)).flatten),
             w.pos + ((xs.map (encodeFieldSingle t tag)).flatten).length⟩ := by
  intro xs
  induction xs with
  | nil =>
    intro w hbuf hroom
    rw [writeRepeatedList]
    simp [splice_nil]
  | cons x xs ih =>
    intro w hbuf hroom
    simp only [List.map_cons, List.flatten_cons, List.length_append] at hroom
    rw [writeRepeatedList]
    have hlenb : (encodePrim t x).length < 2 ^ 32 := by
      have := encodePrim_le_single t tag x
      omega
    have hfs := write_field_single_spec t tag x w hlenb (by omega)
    simp only [hfs]
    have hlenw1 : (splice w.buf w.pos (encodeFieldSingle t tag x)).length = w.buf.length :=
      length_splice (by omega)
    have hrec := ih ⟨splice w.buf w.pos (encodeFieldSingle t tag x),
      w.pos + (encodeFieldSingle t tag x).length⟩
      (by rw [hlenw1]; omega)
      (by
        show w.pos + (encodeFieldSingle t tag x).length +
          ((xs.map (encodeFieldSingle t tag)).flatten).length ≤
            (splice w.buf w.pos (encodeFieldSingle t tag x)).length
        rw [hlenw1]
        omega)
    rw [hrec]
    show WRes.ok (⟨splice (splice w.buf w.pos (encodeFieldSingle t tag x))
          (w.pos + (encodeFieldSingle t tag x).length)
          ((xs.map (encodeFieldSingle t tag)).flatten),
        w.pos + (encodeFieldSingle t tag x).length +
          ((xs.map (encodeFieldSingle t tag)).flatten).length⟩ : ByteWriter) = _
    rw [splice_splice (by omega)]
    simp only [List.map_cons, List.flatten_cons, List.length_append]
    congr 2
    omega

theorem writeFieldKd_spec (k : FieldKind) (t : PrimTy) (tag : Nat) (v : FieldVal k t)
    (w : ByteWriter)
    (hbuf : w.buf.length < 2 ^ 32)
    (hroom : w.pos + (encodeFieldKd k t tag v).length ≤ w.buf.length) :
    writeFieldKd k t tag v w =
      .ok ⟨splice w.buf w.pos (encodeFieldKd k t tag v),
           w.pos + (encodeFieldKd k t tag v).length⟩ := by
  cases k with
  | single =>
    simp only [encodeFieldKd] at hroom
    exact write_field_single_spec t tag v w
      (by have := encodePrim_le_single t tag v; omega) hroom
  | optional =>
    cases v with
    | none =>
      rw [writeFieldKd, encodeFieldKd]
      simp [splice_nil]
    | some x =>
      simp only [encodeFieldKd] at hroom
      exact write_field_single_spec t tag x w
        (by have := encodePrim_le_single t tag x; omega) hroom
  | repeated cap =>
    exact writeRepeatedList_spec t tag v w hbuf hroom

theorem msgWriteRaw_spec {s : List SchemaField} (v : MsgVal s) :
    ∀ (w : ByteWriter),
      w.buf.length < 2 ^ 32 →
      w.pos + (encodeMsg v).length ≤ w.buf.length →
      msgWriteRaw v w =
        .ok ⟨splice w.buf w.pos (encodeMsg v), w.pos + (encodeMsg v).length⟩ := by
  induction v with
  | nil =>
    intro w hbuf hroom
    rw [msgWriteRaw]
    simp [encodeMsg, splice_nil]
  | @cons f fs fv rest ih =>
    intro w hbuf hroom
    simp only [encodeMsg, List.length_append] at hroom
    rw [msgWriteRaw]
    have hfk := writeFieldKd_spec f.kind f.ty f.tag fv w hbuf (by omega)
    simp only [hfk]
    have hlenw1 : (splice w.buf w.pos (encodeFieldKd f.kind f.ty f.tag fv)).length =
        w.buf.length := length_splice (by omega)
    have hrec := ih ⟨splice w.buf w.pos (encodeFieldKd f.kind f.ty f.tag fv),
      w.pos + (encodeFieldKd f.kind f.ty f.tag fv).length⟩
      (by rw [hlenw1]; omega)
      (by
        show w.pos + (encodeFieldKd f.kind f.ty f.tag fv).length + (encodeMsg rest).length ≤
          (splice w.buf w.pos (encodeFieldKd f.kind f.ty f.tag fv)).length
        rw [hlenw1]
        omega)
    rw [hrec]
    show WRes.ok (⟨splice (splice w.buf w.pos (encodeFieldKd f.kind f.ty f.tag fv))
          (w.pos + (encodeFieldKd f.kind f.ty f.tag fv).length) (encodeMsg rest),
        w.pos + (encodeFieldKd f.kind f.ty f.tag fv).length + (encodeMsg rest).length⟩ :
          ByteWriter) = _
    rw [splice_splice (by omega)]
    simp only [encodeMsg, List.length_append]
    congr 2
    omega

theorem read_varuint32_term {hb rest : List Nat} (h : isTermVarint hb = true) :
    ByteReader.read_varuint32 ⟨hb ++ rest⟩ = .ok (assembleVaruint 32 hb 0, ⟨rest⟩) := by
  simp only [ByteReader.read_varuint32, readVaruintAux_term 32 hb rest 0 0 h, Nat.zero_or]

theorem read_varuint64_term {hb rest : List Nat} (h : isTermVarint hb = true) :
    ByteReader.read_varuint64 ⟨hb ++ rest⟩ = .ok (assembleVaruint 64 hb 0, ⟨rest⟩) := by
  simp only [ByteReader.read_varuint64, readVaruintAux_term 64 hb rest 0 0 h, Nat.zero_or]

theorem read_varuint_bytes_term {vb rest : List Nat} (h : isTermVarint vb = true) :
    ByteReader.read_varuint_bytes ⟨vb ++ rest⟩ = .ok (vb, ⟨rest⟩) := by
  simp only [ByteReader.read_varuint_bytes, readVaruintBytesAux_term vb rest h]

theorem read_varuint32_varuintBytes {v : Nat} {rest : List Nat} (hv : v < 2 ^ 32) :
    ByteReader.read_varuint32 ⟨varuintBytes v ++ rest⟩ = .ok (v, ⟨rest⟩) := by
  rw [read_varuint32_term (isTermVarint_varuintBytes v), assembleVaruint_varuintBytes hv]

theorem read_varuint64_varuintBytes {v : Nat} {rest : List Nat} (hv : v < 2 ^ 64) :
    ByteReader.read_varuint64 ⟨varuintBytes v ++ rest⟩ = .ok (v, ⟨rest⟩) := by
  rw [read_varuint64_term (isTermVarint_varuintBytes v), assembleVaruint_varuintBytes hv]

theorem headerOf_eq {t : PrimTy} {tag : Nat} (htag : tag < 2 ^ 29) :
    headerOf t tag = tag * 8 + (primImpl t).wireType.toNum := by
  have hwn : (primImpl t).wireType.toNum < 8 := by
    cases hwt : (primImpl t).wireType <;> simp [WireType.toNum]
  have hvshift : tag <<< 3 = tag * 8 := by
    rw [Nat.shiftLeft_eq]
  have hmod : tag * 8 % 2 ^ 32 = tag * 8 := Nat.mod_eq_of_lt (by omega)
  rw [headerOf, hvshift, hmod, Nat.or_comm, ← hvshift,
    lor_shiftLeft_eq_add 3 tag (by norm_num at hwn ⊢; omega), hvshift]

theorem headerOf_and7 {t : PrimTy} {tag : Nat} (htag : tag < 2 ^ 29) :
    headerOf t tag &&& 7 = (primImpl t).wireType.toNum := by
  have hwn : (primImpl t).wireType.toNum < 8 := by
    cases hwt : (primImpl t).wireType <;> simp [WireType.toNum]
  rw [headerOf_eq htag]
  have h7 : (7 : Nat) = 2 ^ 3 - 1 := by norm_num
  rw [h7, Nat.and_pow_two_sub_one_eq_mod]
  omega

theorem headerOf_shr3 {t : PrimTy} {tag : Nat} (htag : tag < 2 ^ 29) :
    headerOf t tag >>> 3 = tag := by
  have hwn : (primImpl t).wireType.toNum < 8 := by
    cases hwt : (primImpl t).wireType <;> simp [WireType.toNum]
  rw [headerOf_eq htag, Nat.shiftRight_eq_div_pow]
  have h8 : (2 : Nat) ^ 3 = 8 := by norm_num
  rw [h8]
  omega

theorem headerOf_lt {t : PrimTy} {tag : Nat} (htag : tag < 2 ^ 29) :
    headerOf t tag < 2 ^ 32 := by
  have hwn : (primImpl t).wireType.toNum < 8 := by
    cases hwt : (primImpl t).wireType <;> simp [WireType.toNum]
  rw [headerOf_eq htag]
  omega

theorem encodePrim_term {t : PrimTy} (v : PrimVal t)
    (hwt : (primImpl t).wireType = .Varint) :
    isTermVarint (encodePrim t v) = true := by
  cases t with
  | u8T => exact isTermVarint_varuintBytes v
  | u32T => exact isTermVarint_varuintBytes v
  | u64T => exact isTermVarint_varuintBytes v
  | i32T => exact isTermVarint_varuintBytes _
  | i64T => exact isTermVarint_varuintBytes _
  | boolT => exact isTermVarint_varuintBytes _
  | enumT allowed => exact isTermVarint_varuintBytes v
  | stringT cap => exact absurd hwt (by simp [primImpl])
  | bytesT cap => exact absurd hwt (by simp [primImpl])

theorem encodeFieldSingle_ne_nil (t : PrimTy) (tag : Nat) (v : PrimVal t) :
    encodeFieldSingle t tag v ≠ [] := by
  rw [encodeFieldSingle]
  cases hb : varuintBytes (headerOf t tag) with
  | nil => exact absurd hb (varuintBytes_ne_nil _)
  | cons x xs => simp

theorem fieldIterNext_single {t : PrimTy} {tag : Nat} {v : PrimVal t} {rest : List Nat}
    (htag : tag < 2 ^ 29)
    (hlenb : (encodePrim t v).length < 2 ^ 32) :
    fieldIterNext ⟨encodeFieldSingle t tag v ++ rest⟩ =
      some (.ok (frSingle t tag v, ⟨rest⟩)) := by
  have hne : encodeFieldSingle t tag v ++ rest ≠ [] := by
    intro hcontra
    exact encodeFieldSingle_ne_nil t tag v (List.append_eq_nil.mp hcontra).1
  rw [fieldIterNext]
  rw [if_neg (by simpa using hne)]
  cases hwt : (primImpl t).wireType with
  | Varint =>
    have henc : encodeFieldSingle t tag v =
        varuintBytes (headerOf t tag) ++ encodePrim t v := by
      rw [encodeFieldSingle]
      simp only [hwt]
    rw [henc, List.append_assoc]
    have hread : ByteReader.read_varuint32
        ⟨varuintBytes (headerOf t tag) ++ (encodePrim t v ++ rest)⟩ =
        .ok (headerOf t tag, ⟨encodePrim t v ++ rest⟩) :=
      read_varuint32_varuintBytes (headerOf_lt htag)
    simp only [hread]
    have hand : headerOf t tag &&& 7 = 0 := by
      rw [headerOf_and7 htag, hwt]
      rfl
    have hbytes : ByteReader.read_varuint_bytes ⟨encodePrim t v ++ rest⟩ =
        .ok (encodePrim t v, ⟨rest⟩) := read_varuint_bytes_term (encodePrim_term v hwt)
    simp only [hand, hbytes, headerOf_shr3 htag]
    rw [frSingle, hwt]
    simp
  | LengthDelimited =>
    have henc : encodeFieldSingle t tag v =
        varuintBytes (headerOf t tag) ++
          (varuintBytes (encodePrim t v).length ++ encodePrim t v) := by
      rw [encodeFieldSingle]
      simp only [hwt]
    rw [henc, List.append_assoc]
    have hread : ByteReader.read_varuint32
        ⟨varuintBytes (headerOf t tag) ++
          ((varuintBytes (encodePrim t v).length ++ encodePrim t v) ++ rest)⟩ =
        .ok (headerOf t tag,
          ⟨(varuintBytes (encodePrim t v).length ++ encodePrim t v) ++ rest⟩) :=
      read_varuint32_varuintBytes (headerOf_lt htag)
    simp only [hread]
    have hand : headerOf t tag &&& 7 = 2 := by
      rw [headerOf_and7 htag, hwt]
      rfl
    have hlen : ByteReader.read_varuint32
        ⟨(varuintBytes (encodePrim t v).length ++ encodePrim t v) ++ rest⟩ =
        .ok ((encodePrim t v).length, ⟨encodePrim t v ++ rest⟩) := by
      rw [List.append_assoc]
      exact read_varuint32_varuintBytes hlenb
    have hslice : ByteReader.read_slice ⟨encodePrim t v ++ rest⟩ (encodePrim t v).length =
        .ok (encodePrim t v, ⟨rest⟩) := by
      rw [ByteReader.read_slice]
      rw [if_pos (by simp [List.length_append])]
      rw [List.take_left, List.drop_left]
    simp only [hand, hlen, hslice, headerOf_shr3 htag]
    rw [frSingle, hwt]
    simp

theorem read_varuint32_shrink {r : ByteReader} {v : Nat} {r1 : ByteReader}
    (h : r.read_varuint32 = .ok (v, r1)) : r1.data.length < r.data.length := by
  rw [ByteReader.read_varuint32] at h
  cases ha : readVaruintAux 32 r.data 0 0 with
  | err => rw [ha] at h; exact absurd h (by simp)
  | ok p =>
    obtain ⟨v2, rest⟩ := p
    rw [ha] at h
    simp at h
    obtain ⟨-, h2⟩ := h
    rw [← h2]
    exact readVaruintAux_shrink 32 _ _ _ _ _ ha

theorem read_varuint32_append {r : ByteReader} {v : Nat} {r1 : ByteReader} (e : List Nat)
    (h : r.read_varuint32 = .ok (v, r1)) :
    ByteReader.read_varuint32 ⟨r.data ++ e⟩ = .ok (v, ⟨r1.data ++ e⟩) := by
  rw [ByteReader.read_varuint32] at h
  cases ha : readVaruintAux 32 r.data 0 0 with
  | err => rw [ha] at h; exact absurd h (by simp)
  | ok p =>
    obtain ⟨v2, rest⟩ := p
    rw [ha] at h
    simp at h
    obtain ⟨h1, h2⟩ := h
    rw [ByteReader.read_varuint32]
    have := readVaruintAux_append 32 r.data 0 0 v2 rest e ha
    simp only [this]
    rw [h1, ← h2]

theorem read_varuint_bytes_shrink {r : ByteReader} {d : List Nat} {r1 : ByteReader}
    (h : r.read_varuint_bytes = .ok (d, r1)) : r1.data.length < r.data.length := by
  rw [ByteReader.read_varuint_bytes] at h
  cases ha : readVaruintBytesAux r.data with
  | none => rw [ha] at h; exact absurd h (by simp)
  | some p =>
    obtain ⟨v2, rest⟩ := p
    rw [ha] at h
    simp at h
    obtain ⟨-, h2⟩ := h
    rw [← h2]
    exact readVaruintBytesAux_shrink _ _ _ ha

theorem read_varuint_bytes_append {r : ByteReader} {d : List Nat} {r1 : ByteReader}
    (e : List Nat) (h : r.read_varuint_bytes = .ok (d, r1)) :
    ByteReader.read_varuint_bytes ⟨r.data ++ e⟩ = .ok (d, ⟨r1.data ++ e⟩) := by
  rw [ByteReader.read_varuint_bytes] at h
  cases ha : readVaruintBytesAux r.data with
  | none => rw [ha] at h; exact absurd h (by simp)
  | some p =>
    obtain ⟨v2, rest⟩ := p
    rw [ha] at h
    simp at h
    obtain ⟨h1, h2⟩ := h
    rw [ByteReader.read_varuint_bytes]
    have := readVaruintBytesAux_append r.data v2 rest e ha
    simp only [this]
    rw [h1, ← h2]

theorem read_slice_le {r : ByteReader} {len : Nat} {d : List Nat} {r1 : ByteReader}
    (h : r.read_slice len = .ok (d, r1)) : r1.data.length ≤ r.data.length := by
  rw [ByteReader.read_slice] at h
  by_cases hl : len ≤ r.data.length
  · rw [if_pos hl] at h
    simp at h
    obtain ⟨-, h2⟩ := h
    rw [← h2]
    simp
  · rw [if_neg hl] at h
    exact absurd h (by simp)

theorem read_slice_append {r : ByteReader} {len : Nat} {d : List Nat} {r1 : ByteReader}
    (e : List Nat) (h : r.read_slice len = .ok (d, r1)) :
    ByteReader.read_slice ⟨r.data ++ e⟩ len = .ok (d, ⟨r1.data ++ e⟩) := by
  rw [ByteReader.read_slice] at h
  by_cases hl : len ≤ r.data.length
  · rw [if_pos hl] at h
    simp at h
    obtain ⟨h1, h2⟩ := h
    rw [ByteReader.read_slice]
    rw [if_pos (by simp [List.length_append]; omega)]
    have ht : (r.data ++ e).take len = r.data.take len := List.take_append_of_le_length hl
    have hd : (r.data ++ e).drop len = r.data.drop len ++ e :=
      List.drop_append_of_le_length hl
    rw [ht, hd, h1, ← h2]
  · rw [if_neg hl] at h
    exact absurd h (by simp)

theorem fieldIterNext_shrink {r : ByteReader} {fr : FieldReader} {r1 : ByteReader}
    (h : fieldIterNext r = some (.ok (fr, r1))) :
    r1.data.length < r.data.length := by
  rw [fieldIterNext] at h
  by_cases hnil : r.data = []
  · rw [if_pos hnil] at h
    exact absurd h (by simp)
  rw [if_neg hnil] at h
  cases hh : ByteReader.read_varuint32 r with
  | err => rw [hh] at h; exact absurd h (by simp)
  | ok p =>
    obtain ⟨header, rh⟩ := p
    simp only [hh] at h
    have hsh := read_varuint32_shrink hh
    by_cases h0 : header &&& 0b111 = 0
    · rw [if_pos h0] at h
      cases hb : rh.read_varuint_bytes with
      | err => rw [hb] at h; exact absurd h (by simp)
      | ok q =>
        obtain ⟨d, r2⟩ := q
        simp only [hb] at h
        have hsb := read_varuint_bytes_shrink hb
        simp at h
        obtain ⟨-, h2⟩ := h
        rw [← h2]
        omega
    · rw [if_neg h0] at h
      by_cases h2w : header &&& 0b111 = 2
      · rw [if_pos h2w] at h
        cases hb : rh.read_varuint32 with
        | err => rw [hb] at h; exact absurd h (by simp)
        | ok q =>
          obtain ⟨len, r2⟩ := q
          simp only [hb] at h
          have hsb := read_varuint32_shrink hb
          cases hsl : r2.read_slice len with
          | err => rw [hsl] at h; exact absurd h (by simp)
          | ok q2 =>
            obtain ⟨d, r3⟩ := q2
            simp only [hsl] at h
            have hsl2 := read_slice_le hsl
            simp at h
            obtain ⟨-, h2⟩ := h
            rw [← h2]
            omega
      · rw [if_neg h2w] at h
        exact absurd h (by simp)

theorem fieldIterNext_append {r : ByteReader} {fr : FieldReader} {r1 : ByteReader}
    (e : List Nat) (h : fieldIterNext r = some (.ok (fr, r1))) :
    fieldIterNext ⟨r.data ++ e⟩ = some (.ok (fr, ⟨r1.data ++ e⟩)) := by
  rw [fieldIterNext] at h
  by_cases hnil : r.data = []
  · rw [if_pos hnil] at h
    exact absurd h (by simp)
  rw [if_neg hnil] at h
  have hnil2 : ¬(r.data ++ e = []) := by
    intro hc
    exact hnil (List.append_eq_nil.mp hc).1
  rw [fieldIterNext, if_neg (by simpa using hnil2)]
  cases hh : ByteReader.read_varuint32 r with
  | err => rw [hh] at h; exact absurd h (by simp)
  | ok p =>
    obtain ⟨header, rh⟩ := p
    simp only [hh] at h
    simp only [read_varuint32_append e hh]
    by_cases h0 : header &&& 0b111 = 0
    · rw [if_pos h0] at h
      rw [if_pos h0]
      cases hb : rh.read_varuint_bytes with
      | err => rw [hb] at h; exact absurd h (by simp)
      | ok q =>
        obtain ⟨d, r2⟩ := q
        simp only [hb] at h
        simp only [read_varuint_bytes_append e hb]
        simp at h
        obtain ⟨h1, h2⟩ := h
        rw [h1, ← h2]
    · rw [if_neg h0] at h
      rw [if_neg h0]
      by_cases h2w : header &&& 0b111 = 2
      · rw [if_pos h2w] at h
        rw [if_pos h2w]
        cases hb : rh.read_varuint32 with
        | err => rw [hb] at h; exact absurd h (by simp)
        | ok q =>
          obtain ⟨len, r2⟩ := q
          simp only [hb] at h
          simp only [read_varuint32_append e hb]
          cases hsl : r2.read_slice len with
          | err => rw [hsl] at h; exact absurd h (by simp)
          | ok q2 =>
            obtain ⟨d, r3⟩ := q2
            simp only [hsl] at h
            simp only [read_slice_append e hsl]
            simp at h
            obtain ⟨h1, h2⟩ := h
            rw [h1, ← h2]
      · rw [if_neg h2w] at h
        exact absurd h (by simp)

theorem readLoopFuel_congr {α : Type} (step : α → FieldReader → RRes α) :
    ∀ (n n1 : Nat) (m : α) (r : ByteReader), r.data.length < n → r.data.length < n1 →
      readLoopFuel step n m r = readLoopFuel step n1 m r := by
  intro n
  induction n using Nat.strong_induction_on with
  | _ n ih =>
    intro n1 m r hn hn1
    cases n with
    | zero => omega
    | succ n =>
      cases n1 with
      | zero => omega
      | succ n1 =>
        rw [readLoopFuel, readLoopFuel]
        cases hf : fieldIterNext r with
        | none => simp only [hf]
        | some res =>
          cases res with
          | err => simp only [hf]
          | ok p =>
            obtain ⟨fr, r2⟩ := p
            have hs := fieldIterNext_shrink hf
            simp only [hf]
            cases hstep : step m fr with
            | err => simp only [hstep]
            | ok m1 =>
              simp only [hstep]
              exact ih n (by omega) n1 m1 r2 (by omega) (by omega)


theorem fieldIterNext_nil : fieldIterNext ⟨[]⟩ = none := by
  rw [fieldIterNext, if_pos rfl]

theorem fieldIterNext_none {r : ByteReader} (h : fieldIterNext r = none) :
    r.data = [] := by
  by_contra hne
  rw [fieldIterNext, if_neg hne] at h
  exact absurd h (by simp)

theorem readLoopFuel_nil {α : Type} (step : α → FieldReader → RRes α) (n : Nat) (m : α) :
    readLoopFuel step (n + 1) m ⟨[]⟩ = .ok m := by
  rw [readLoopFuel]
  simp only [fieldIterNext_nil]

theorem foldE_append {α : Type} (step : α → FieldReader → RRes α) :
    ∀ (l1 l2 : List FieldReader) (m : α),
      foldE step m (l1 ++ l2) =
        match foldE step m l1 with
        | .ok m1 => foldE step m1 l2
        | .err => .err := by
  intro l1
  induction l1 with
  | nil => intro l2 m; rfl
  | cons fr frs ih =>
    intro l2 m
    rw [List.cons_append, foldE, foldE]
    cases hs : step m fr with
    | err => simp only [hs]
    | ok m1 =>
      simp only [hs]
      exact ih l2 m1

theorem readLoopFuel_chunks {α : Type} (step : α → FieldReader → RRes α) :
    ∀ (ps : List (List Nat × FieldReader)),
      (∀ p ∈ ps, ∀ tail : List Nat,
        fieldIterNext ⟨p.1 ++ tail⟩ = some (.ok (p.2, ⟨tail⟩))) →
      ∀ (rest : List Nat) (m : α) (n : Nat),
        ((ps.map Prod.fst).flatten).length + rest.length < n →
        readLoopFuel step n m ⟨(ps.map Prod.fst).flatten ++ rest⟩ =
          match foldE step m (ps.map Prod.snd) with
          | .ok m1 => readLoopFuel step n m1 ⟨rest⟩
          | .err => .err := by
  intro ps
  induction ps with
  | nil =>
    intro hgood rest m n hn
    simp only [List.map_nil, List.flatten_nil, List.nil_append, foldE]
  | cons p ps ih =>
    intro hgood rest m n hn
    obtain ⟨c, fr⟩ := p
    simp only [List.map_cons, List.flatten_cons, List.length_append] at hn ⊢
    cases n with
    | zero => omega
    | succ n =>
      rw [List.append_assoc, readLoopFuel]
      have hfi := hgood (c, fr) (by simp) ((ps.map Prod.fst).flatten ++ rest)
      dsimp only at hfi
      simp only [hfi]
      have hshrink := fieldIterNext_shrink hfi
      simp only [List.length_append] at hshrink
      rw [foldE]
      cases hs : step m fr with
      | err => simp only [hs]
      | ok m1 =>
        simp only [hs]
        have hrec := ih (fun q hq tail => hgood q (List.mem_cons_of_mem _ hq) tail)
          rest m1 n (by omega)
        rw [hrec]
        cases hfold : foldE step m1 (ps.map Prod.snd) with
        | err => rfl
        | ok m2 =>
          exact readLoopFuel_congr step n (n + 1) m2 ⟨rest⟩
            (by show rest.length < n; omega) (by show rest.length < n + 1; omega)

theorem readLoopFuel_append {α : Type} (step : α → FieldReader → RRes α) :
    ∀ (n : Nat) (m : α) (r : ByteReader) (m1 : α) (e : List Nat) (n2 : Nat),
      readLoopFuel step n m r = .ok m1 →
      r.data.length + e.length < n2 →
      readLoopFuel step n2 m ⟨r.data ++ e⟩ = readLoopFuel step n2 m1 ⟨e⟩ := by
  intro n
  induction n using Nat.strong_induction_on with
  | _ n ih =>
    intro m r m1 e n2 h hn2
    cases n with
    | zero => rw [readLoopFuel] at h; exact absurd h (by simp)
    | succ n =>
      rw [readLoopFuel] at h
      cases hf : fieldIterNext r with
      | none =>
        have hnil := fieldIterNext_none hf
        simp only [hf] at h
        have hm : m = m1 := RRes.ok.inj h
        rw [hnil, List.nil_append, hm]
      | some res =>
        cases res with
        | err => simp only [hf] at h; exact absurd h (by simp)
        | ok p =>
          obtain ⟨fr, r1⟩ := p
          simp only [hf] at h
          cases hs : step m fr with
          | err => simp only [hs] at h; exact absurd h (by simp)
          | ok m2 =>
            simp only [hs] at h
            have hshr := fieldIterNext_shrink hf
            cases n2 with
            | zero => omega
            | succ n2 =>
              rw [readLoopFuel]
              have hfa := fieldIterNext_append e hf
              simp only [hfa, hs]
              have hrec := ih n (by omega) m2 r1 m1 e n2 h (by omega)
              rw [hrec]
              exact readLoopFuel_congr step n2 (n2 + 1) m1 ⟨e⟩
                (by show e.length < n2; omega) (by show e.length < n2 + 1; omega)

theorem primImpl_read_encode : ∀ (t : PrimTy) (v old : PrimVal t),
    primValidB t v = true → (primImpl t).read_raw old ⟨encodePrim t v⟩ = .ok v := by
  intro t
  cases t with
  | u8T =>
    intro v old hval
    simp only [primValidB, decide_eq_true_eq] at hval
    have h := @read_varuint32_varuintBytes v [] (Nat.lt_of_lt_of_le hval (by norm_num))
    rw [List.append_nil] at h
    simp only [primImpl, encodePrim, h]
    rw [if_pos hval]
  | u32T =>
    intro v old hval
    simp only [primValidB, decide_eq_true_eq] at hval
    have h := @read_varuint32_varuintBytes v [] hval
    rw [List.append_nil] at h
    simp only [primImpl, encodePrim, h]
  | u64T =>
    intro v old hval
    simp only [primValidB, decide_eq_true_eq] at hval
    have h := @read_varuint64_varuintBytes v [] hval
    rw [List.append_nil] at h
    simp only [primImpl, encodePrim, h]
  | i32T =>
    intro v old hval
    simp only [primValidB, decide_eq_true_eq] at hval
    have h := @read_varuint32_varuintBytes (zigzagPattern 32 v) [] (zigzagPattern_lt 32 v)
    rw [List.append_nil] at h
    simp only [primImpl, encodePrim, ByteReader.read_varint32, h]
    rw [unzigzag_zigzagPattern (by norm_num) hval.1 hval.2]
  | i64T =>
    intro v old hval
    simp only [primValidB, decide_eq_true_eq] at hval
    have h := @read_varuint64_varuintBytes (zigzagPattern 64 v) [] (zigzagPattern_lt 64 v)
    rw [List.append_nil] at h
    simp only [primImpl, encodePrim, ByteReader.read_varint64, h]
    rw [unzigzag_zigzagPattern (by norm_num) hval.1 hval.2]
  | boolT =>
    intro v old hval
    cases v <;> rfl
  | enumT allowed =>
    intro v old hval
    simp only [primValidB, Bool.and_eq_true, decide_eq_true_eq] at hval
    have h := @read_varuint32_varuintBytes v [] hval.1
    rw [List.append_nil] at h
    simp only [primImpl, encodePrim, h]
    rw [if_pos hval.2]
  | stringT cap =>
    intro v old hval
    simp only [primValidB, Bool.and_eq_true, decide_eq_true_eq] at hval
    simp only [primImpl, encodePrim, ByteReader.read_to_end, hval.1, if_true,
      heaplessClear, heaplessPush, List.length_nil, List.nil_append, Nat.zero_add]
    rw [if_pos hval.2]
  | bytesT cap =>
    intro v old hval
    simp only [primValidB, Bool.and_eq_true, decide_eq_true_eq] at hval
    simp only [primImpl, encodePrim, ByteReader.read_to_end,
      heaplessClear, heaplessPush, List.length_nil, List.nil_append, Nat.zero_add]
    rw [if_pos hval.1]

theorem fieldRead_encode {t : PrimTy} (tag : Nat) (v old : PrimVal t)
    (hval : primValidB t v = true) :
    FieldReader.read (primImpl t) (frSingle t tag v) old = .ok v := by
  rw [FieldReader.read, if_neg (by simp [frSingle])]
  exact primImpl_read_encode t v old hval

theorem msgStep_head {f : SchemaField} {fs : List SchemaField}
    (v : FieldVal f.kind f.ty) (rest : MsgVal fs) (fr : FieldReader)
    (htag : fr.tag = f.tag) :
    msgStep (.cons v rest) fr =
      match stepFieldKd f.kind f.ty fr v with
      | .ok v1 => .ok (.cons v1 rest)
      | .err => .err := by
  rw [msgStep, if_pos htag]

theorem msgStep_skip {f : SchemaField} {fs : List SchemaField}
    (v : FieldVal f.kind f.ty) (rest : MsgVal fs) (fr : FieldReader)
    (htag : fr.tag ≠ f.tag) :
    msgStep (.cons v rest) fr =
      match msgStep rest fr with
      | .ok rest1 => .ok (.cons v rest1)
      | .err => .err := by
  rw [msgStep, if_neg htag]

theorem msgStep_unknown : ∀ {s : List SchemaField} (m : MsgVal s) (fr : FieldReader),
    fr.tag ∉ s.map SchemaField.tag → msgStep m fr = .ok m := by
  intro s m
  induction m with
  | nil => intro fr _; rfl
  | @cons f fs v rest ih =>
    intro fr h
    simp only [List.map_cons, List.mem_cons] at h
    push_neg at h
    rw [msgStep_skip v rest fr h.1]
    simp only [ih fr h.2]

theorem foldE_msgStep_lift {f : SchemaField} {fs : List SchemaField}
    (v : FieldVal f.kind f.ty) :
    ∀ (frs : List FieldReader) (m : MsgVal fs),
      (∀ fr ∈ frs, fr.tag ≠ f.tag) →
      foldE msgStep (.cons v m) frs =
        match foldE msgStep m frs with
        | .ok m1 => .ok (.cons v m1)
        | .err => .err := by
  intro frs
  induction frs with
  | nil => intro m _; rfl
  | cons fr frs ih =>
    intro m h
    rw [foldE, foldE, msgStep_skip v m fr (h fr (by simp))]
    cases hs : msgStep m fr with
    | err => simp only [hs]
    | ok m1 =>
      simp only [hs]
      exact ih m1 (fun x hx => h x (List.mem_cons_of_mem _ hx))

theorem fieldFrs_tag (k : FieldKind) (t : PrimTy) (tag : Nat) (v : FieldVal k t) :
    ∀ fr ∈ fieldFrs k t tag v, fr.tag = tag := by
  cases k with
  | single => intro fr h; simp only [fieldFrs, List.mem_singleton] at h; rw [h]; rfl
  | optional =>
    cases v with
    | none => intro fr h; simp [fieldFrs] at h
    | some x => intro fr h; simp only [fieldFrs, List.mem_singleton] at h; rw [h]; rfl
  | repeated cap =>
    intro fr h
    simp only [fieldFrs, List.mem_map] at h
    obtain ⟨x, -, hx⟩ := h
    rw [← hx]
    rfl

theorem msgFrs_tags : ∀ {s : List SchemaField} (m : MsgVal s) (fr : FieldReader),
    fr ∈ msgFrs m → fr.tag ∈ s.map SchemaField.tag := by
  intro s m
  induction m with
  | nil => intro fr h; simp [msgFrs] at h
  | @cons f fs v rest ih =>
    intro fr h
    rw [msgFrs] at h
    rcases List.mem_append.mp h with h1 | h2
    · simp only [List.map_cons, List.mem_cons]
      exact Or.inl (fieldFrs_tag f.kind f.ty f.tag v fr h1)
    · simp only [List.map_cons, List.mem_cons]
      exact Or.inr (ih fr h2)

theorem foldE_repeated_acc {ftag cap : Nat} {t : PrimTy} {fs : List SchemaField} :
    ∀ (xs acc : List (PrimVal t)) (mrest : MsgVal fs),
      acc.length + xs.length ≤ cap →
      xs.all (primValidB t) = true →
      foldE msgStep (@MsgVal.cons ⟨ftag, .repeated cap, t⟩ fs acc mrest)
          (xs.map (frSingle t ftag)) =
        .ok (@MsgVal.cons ⟨ftag, .repeated cap, t⟩ fs (acc ++ xs) mrest) := by
  intro xs
  induction xs with
  | nil =>
    intro acc mrest _ _
    simp only [List.map_nil, List.append_nil]
    rfl
  | cons x xs ih =>
    intro acc mrest hcap hall
    simp only [List.all_cons, Bool.and_eq_true] at hall
    simp only [List.length_cons] at hcap
    simp only [List.map_cons]
    rw [foldE, @msgStep_head ⟨ftag, .repeated cap, t⟩ fs acc mrest (frSingle t ftag x) rfl]
    dsimp only
    rw [stepFieldKd, FieldReader.read_repeated, if_neg (by simp [frSingle])]
    simp only [fieldRead_encode ftag x (primDefault t) hall.1]
    rw [if_pos (show acc.length < cap by omega)]
    dsimp only
    have hrec := ih (acc ++ [x]) mrest
      (by simp only [List.length_append, List.length_singleton]; omega) hall.2
    rw [hrec, List.append_assoc, List.singleton_append]

theorem foldE_field {ftag : Nat} (k : FieldKind) (t : PrimTy) {fs : List SchemaField}
    (v mv : FieldVal k t) (mrest : MsgVal fs)
    (hval : fieldValidB k t v = true)
    (hpre : preFieldB k t mv v = true) :
    foldE msgStep (@MsgVal.cons ⟨ftag, k, t⟩ fs mv mrest) (fieldFrs k t ftag v) =
      .ok (@MsgVal.cons ⟨ftag, k, t⟩ fs v mrest) := by
  cases k with
  | single =>
    simp only [fieldValidB] at hval
    simp only [fieldFrs]
    rw [foldE, @msgStep_head ⟨ftag, .single, t⟩ fs mv mrest (frSingle t ftag v) rfl]
    dsimp only
    rw [stepFieldKd]
    simp only [fieldRead_encode ftag v mv hval]
    rfl
  | optional =>
    cases v with
    | none =>
      cases mv with
      | none => rfl
      | some y => simp [preFieldB] at hpre
    | some x =>
      simp only [fieldValidB] at hval
      simp only [fieldFrs]
      rw [foldE, @msgStep_head ⟨ftag, .optional, t⟩ fs mv mrest (frSingle t ftag x) rfl]
      dsimp only
      rw [stepFieldKd, FieldReader.read_optional, if_neg (by simp [frSingle])]
      simp only [fieldRead_encode ftag x (primDefault t) hval]
      rfl
  | repeated cap =>
    simp only [preFieldB, List.isEmpty_iff] at hpre
    simp only [fieldValidB, Bool.and_eq_true, decide_eq_true_eq] at hval
    rw [hpre]
    have h := @foldE_repeated_acc ftag cap t fs v [] mrest (by simpa using hval.1) hval.2
    simpa using h

theorem preStateB_default : ∀ {s : List SchemaField} (v : MsgVal s),
    preStateB (msgDefault s) v = true := by
  intro s v
  induction v with
  | nil => rfl
  | @cons f fs fv rest ih =>
    obtain ⟨ftag, fk, ft⟩ := f
    rw [msgDefault, preStateB, Bool.and_eq_true]
    refine ⟨?_, ih⟩
    dsimp only
    cases fk with
    | single => rfl
    | optional => cases fv with | none => rfl | some x => rfl
    | repeated cap => rfl

theorem schemaWFB_tail {f : SchemaField} {fs : List SchemaField}
    (h : schemaWFB (f :: fs) = true) : schemaWFB fs = true := by
  simp only [schemaWFB, Bool.and_eq_true, decide_eq_true_eq, List.map_cons,
    List.nodup_cons, List.all_cons] at h ⊢
  exact ⟨h.1.2, h.2.2⟩

theorem schemaWFB_head_lt {f : SchemaField} {fs : List SchemaField}
    (h : schemaWFB (f :: fs) = true) : f.tag < 2 ^ 29 := by
  simp only [schemaWFB, Bool.and_eq_true, decide_eq_true_eq, List.map_cons,
    List.nodup_cons, List.all_cons] at h
  exact h.2.1.2

theorem schemaWFB_head_notin {f : SchemaField} {fs : List SchemaField}
    (h : schemaWFB (f :: fs) = true) : f.tag ∉ fs.map SchemaField.tag := by
  simp only [schemaWFB, Bool.and_eq_true, decide_eq_true_eq, List.map_cons,
    List.nodup_cons, List.all_cons] at h
  exact h.1.1

theorem foldE_msgFrs : ∀ {s : List SchemaField} (v m : MsgVal s),
    schemaWFB s = true → msgValidB v = true → preStateB m v = true →
    foldE msgStep m (msgFrs v) = .ok v := by
  intro s v
  induction v with
  | nil =>
    intro m _ _ _
    cases m
    rfl
  | @cons f fs fv vrest ih =>
    intro m hWF hval hpre
    cases m with
    | cons mv mrest =>
      have hWFtail := schemaWFB_tail hWF
      have hnotin := schemaWFB_head_notin hWF
      obtain ⟨ftag, fk, ft⟩ := f
      simp only [msgValidB, Bool.and_eq_true] at hval
      simp only [preStateB, Bool.and_eq_true] at hpre
      rw [msgFrs, foldE_append]
      have h1 := @foldE_field ftag fk ft fs fv mv mrest hval.1 hpre.1
      simp only [h1]
      rw [foldE_msgStep_lift fv (msgFrs vrest) mrest
        (fun fr hfr => by
          have hmem := msgFrs_tags vrest fr hfr
          intro hc
          rw [hc] at hmem
          exact hnotin hmem)]
      simp only [ih mrest hWFtail hval.2 hpre.2]

theorem length_le_flatten {l : List Nat} :
    ∀ (L : List (List Nat)), l ∈ L → l.length ≤ L.flatten.length := by
  intro L
  induction L with
  | nil => intro h; simp at h
  | cons a L ih =>
    intro h
    rw [List.flatten_cons, List.length_append]
    rcases List.mem_cons.mp h with h1 | h2
    · rw [h1]; omega
    · have := ih h2; omega

theorem fieldChunks_fst (k : FieldKind) (t : PrimTy) (tag : Nat) (v : FieldVal k t) :
    ((fieldChunks k t tag v).map Prod.fst).flatten = encodeFieldKd k t tag v := by
  cases k with
  | single => simp [fieldChunks, encodeFieldKd]
  | optional =>
    cases v with
    | none => rfl
    | some x => simp [fieldChunks, encodeFieldKd]
  | repeated cap => simp [fieldChunks, encodeFieldKd, List.map_map, Function.comp_def]

theorem fieldChunks_snd (k : FieldKind) (t : PrimTy) (tag : Nat) (v : FieldVal k t) :
    (fieldChunks k t tag v).map Prod.snd = fieldFrs k t tag v := by
  cases k with
  | single => rfl
  | optional =>
    cases v with
    | none => rfl
    | some x => rfl
  | repeated cap => simp [fieldChunks, fieldFrs, List.map_map, Function.comp_def]

theorem msgChunks_fst : ∀ {s : List SchemaField} (v : MsgVal s),
    ((msgChunks v).map Prod.fst).flatten = encodeMsg v := by
  intro s v
  induction v with
  | nil => rfl
  | @cons f fs fv rest ih =>
    rw [msgChunks, encodeMsg, List.map_append, List.flatten_append, ih, fieldChunks_fst]

theorem msgChunks_snd : ∀ {s : List SchemaField} (v : MsgVal s),
    (msgChunks v).map Prod.snd = msgFrs v := by
  intro s v
  induction v with
  | nil => rfl
  | @cons f fs fv rest ih =>
    rw [msgChunks, msgFrs, List.map_append, ih, fieldChunks_snd]

theorem msgChunks_good : ∀ {s : List SchemaField} (v : MsgVal s),
    schemaWFB s = true → (encodeMsg v).length < 2 ^ 32 →
    ∀ p ∈ msgChunks v, ∀ tail : List Nat,
      fieldIterNext ⟨p.1 ++ tail⟩ = some (.ok (p.2, ⟨tail⟩)) := by
  intro s v
  induction v with
  | nil => intro _ _ p hp; simp [msgChunks] at hp
  | @cons f fs fv rest ih =>
    intro hWF hsize p hp tail
    have htag := schemaWFB_head_lt hWF
    have hWFtail := schemaWFB_tail hWF
    simp only [encodeMsg, List.length_append] at hsize
    rw [msgChunks] at hp
    rcases List.mem_append.mp hp with h1 | h2
    · obtain ⟨ftag, fk, ft⟩ := f
      cases fk with
      | single =>
        simp only [fieldChunks, List.mem_singleton] at h1
        rw [h1]
        have hle := encodePrim_le_single ft ftag fv
        refine fieldIterNext_single htag ?_
        simp only [encodeFieldKd] at hsize
        omega
      | optional =>
        cases fv with
        | none => simp [fieldChunks] at h1
        | some x =>
          simp only [fieldChunks, List.mem_singleton] at h1
          rw [h1]
          have hle := encodePrim_le_single ft ftag x
          refine fieldIterNext_single htag ?_
          simp only [encodeFieldKd] at hsize
          omega
      | repeated cap =>
        simp only [fieldChunks, List.mem_map] at h1
        obtain ⟨x, hx, hpx⟩ := h1
        rw [← hpx]
        have hle := encodePrim_le_single ft ftag x
        have hmem : encodeFieldSingle ft ftag x ∈ fv.map (encodeFieldSingle ft ftag) :=
          List.mem_map_of_mem _ hx
        have hfl := length_le_flatten (fv.map (encodeFieldSingle ft ftag)) hmem
        refine fieldIterNext_single htag ?_
        simp only [encodeFieldKd] at hsize
        omega
    · have hsize' : (encodeMsg rest).length < 2 ^ 32 := by omega
      exact ih hWFtail hsize' p h2 tail

theorem msgReadRaw_encode {s : List SchemaField} (v m : MsgVal s)
    (hWF : schemaWFB s = true) (hval : msgValidB v = true)
    (hpre : preStateB m v = true) (hsize : (encodeMsg v).length < 2 ^ 32) :
    msgReadRaw m ⟨encodeMsg v⟩ = .ok v := by
  have hgood := msgChunks_good v hWF hsize
  have hchunks := readLoopFuel_chunks msgStep (msgChunks v) hgood [] m
    ((encodeMsg v).length + 1)
    (by rw [msgChunks_fst]; simp only [List.length_nil]; omega)
  rw [msgChunks_fst, List.append_nil, msgChunks_snd] at hchunks
  rw [msgReadRaw]
  dsimp only
  rw [hchunks]
  simp only [foldE_msgFrs v m hWF hval hpre]
  exact readLoopFuel_nil msgStep (encodeMsg v).length v

theorem isTermVarint_ne_nil {hb : List Nat} (h : isTermVarint hb = true) : hb ≠ [] := by
  intro hc
  rw [hc] at h
  simp [isTermVarint] at h

theorem fieldIterNext_varint_ok {hb vb rest : List Nat}
    (hhb : isTermVarint hb = true) (hvb : isTermVarint vb = true)
    (hwt : assembleVaruint 32 hb 0 &&& 7 = 0) :
    fieldIterNext ⟨hb ++ vb ++ rest⟩ =
      some (.ok (⟨assembleVaruint 32 hb 0 >>> 3, vb, .Varint⟩, ⟨rest⟩)) := by
  have hne : hb ++ vb ++ rest ≠ [] := by
    intro hc
    exact isTermVarint_ne_nil hhb (List.append_eq_nil.mp (List.append_eq_nil.mp hc).1).1
  rw [fieldIterNext, if_neg (by simpa using hne), List.append_assoc]
  simp only [@read_varuint32_term hb (vb ++ rest) hhb]
  rw [if_pos hwt]
  simp only [@read_varuint_bytes_term vb rest hvb]

theorem fieldIterNext_ld_ok {hb pl rest : List Nat}
    (hhb : isTermVarint hb = true)
    (hwt : assembleVaruint 32 hb 0 &&& 7 = 2)
    (hlen : pl.length < 2 ^ 32) :
    fieldIterNext ⟨hb ++ varuintBytes pl.length ++ pl ++ rest⟩ =
      some (.ok (⟨assembleVaruint 32 hb 0 >>> 3, pl, .LengthDelimited⟩, ⟨rest⟩)) := by
  have hne : hb ++ varuintBytes pl.length ++ pl ++ rest ≠ [] := by
    intro hc
    exact isTermVarint_ne_nil hhb
      (List.append_eq_nil.mp
        (List.append_eq_nil.mp (List.append_eq_nil.mp hc).1).1).1
  rw [fieldIterNext, if_neg (by simpa using hne), List.append_assoc, List.append_assoc]
  simp only [@read_varuint32_term hb (varuintBytes pl.length ++ (pl ++ rest)) hhb]
  rw [if_neg (by omega), if_pos hwt]
  simp only [@read_varuint32_varuintBytes pl.length (pl ++ rest) hlen]
  have hslice : ByteReader.read_slice ⟨pl ++ rest⟩ pl.length = .ok (pl, ⟨rest⟩) := by
    rw [ByteReader.read_slice, if_pos (by simp)]
    rw [List.take_left, List.drop_left]
  simp only [hslice]

theorem fieldIterNext_badwire {hb rest : List Nat}
    (hhb : isTermVarint hb = true)
    (h0 : assembleVaruint 32 hb 0 &&& 7 ≠ 0)
    (h2 : assembleVaruint 32 hb 0 &&& 7 ≠ 2) :
    fieldIterNext ⟨hb ++ rest⟩ = some .err := by
  have hne : hb ++ rest ≠ [] := by
    intro hc
    exact isTermVarint_ne_nil hhb (List.append_eq_nil.mp hc).1
  rw [fieldIterNext, if_neg (by simpa using hne)]
  simp only [@read_varuint32_term hb rest hhb]
  rw [if_neg h0, if_neg h2]

theorem fieldIterNext_truncated_header {data : List Nat}
    (hne : data ≠ []) (hcont : ∀ b ∈ data, b &&& 0x80 ≠ 0) :
    fieldIterNext ⟨data⟩ = some .err := by
  rw [fieldIterNext, if_neg (by simpa using hne)]
  have h : ByteReader.read_varuint32 ⟨data⟩ = .err := by
    rw [ByteReader.read_varuint32, readVaruintAux_allCont 32 data 0 0 hcont]
  simp only [h]

theorem fieldIterNext_truncated_varint {hb rest : List Nat}
    (hhb : isTermVarint hb = true)
    (hwt : assembleVaruint 32 hb 0 &&& 7 = 0)
    (hcont : ∀ b ∈ rest, b &&& 0x80 ≠ 0) :
    fieldIterNext ⟨hb ++ rest⟩ = some .err := by
  have hne : hb ++ rest ≠ [] := by
    intro hc
    exact isTermVarint_ne_nil hhb (List.append_eq_nil.mp hc).1
  rw [fieldIterNext, if_neg (by simpa using hne)]
  simp only [@read_varuint32_term hb rest hhb]
  rw [if_pos hwt]
  have h : ByteReader.read_varuint_bytes ⟨rest⟩ = .err := by
    rw [ByteReader.read_varuint_bytes, readVaruintBytesAux_allCont rest hcont]
  simp only [h]

theorem fieldIterNext_ld_overrun {hb pl : List Nat} {len : Nat}
    (hhb : isTermVarint hb = true)
    (hwt : assembleVaruint 32 hb 0 &&& 7 = 2)
    (hlen32 : len < 2 ^ 32) (hshort : pl.length < len) :
    fieldIterNext ⟨hb ++ varuintBytes len ++ pl⟩ = some .err := by
  have hne : hb ++ varuintBytes len ++ pl ≠ [] := by
    intro hc
    exact isTermVarint_ne_nil hhb
      (List.append_eq_nil.mp (List.append_eq_nil.mp hc).1).1
  rw [fieldIterNext, if_neg (by simpa using hne), List.append_assoc]
  simp only [@read_varuint32_term hb (varuintBytes len ++ pl) hhb]
  rw [if_neg (by omega), if_pos hwt]
  simp only [@read_varuint32_varuintBytes len pl hlen32]
  have hsl : ByteReader.read_slice ⟨pl⟩ len = .err := by
    rw [ByteReader.read_slice, if_neg (by show ¬(len ≤ pl.length); omega)]
  simp only [hsl]

theorem stringT_read_ok (cap : Nat) (old data : List Nat)
    (hutf : utf8Valid data = true) (hcap : data.length ≤ cap) :
    (primImpl (.stringT cap)).read_raw old ⟨data⟩ = .ok data := by
  simp only [primImpl, ByteReader.read_to_end, hutf, if_true, heaplessClear,
    heaplessPush, List.length_nil, List.nil_append, Nat.zero_add]
  rw [if_pos hcap]

theorem bytesT_read_ok (cap : Nat) (old data : List Nat)
    (hcap : data.length ≤ cap) :
    (primImpl (.bytesT cap)).read_raw old ⟨data⟩ = .ok data := by
  simp only [primImpl, ByteReader.read_to_end, heaplessClear,
    heaplessPush, List.length_nil, List.nil_append, Nat.zero_add]
  rw [if_pos hcap]

theorem stringT_read_badutf8 (cap : Nat) (old data : List Nat)
    (hutf : utf8Valid data = false) :
    (primImpl (.stringT cap)).read_raw old ⟨data⟩ = .err := by
  simp [primImpl, ByteReader.read_to_end, hutf]

theorem stringT_read_overflow (cap : Nat) (old data : List Nat)
    (hcap : cap < data.length) :
    (primImpl (.stringT cap)).read_raw old ⟨data⟩ = .err := by
  cases hutf : utf8Valid data with
  | false => exact stringT_read_badutf8 cap old data hutf
  | true =>
    simp only [primImpl, ByteReader.read_to_end, hutf, if_true, heaplessClear,
      heaplessPush, List.length_nil, List.nil_append, Nat.zero_add]
    rw [if_neg (by omega)]

theorem bytesT_read_overflow (cap : Nat) (old data : List Nat)
    (hcap : cap < data.length) :
    (primImpl (.bytesT cap)).read_raw old ⟨data⟩ = .err := by
  simp only [primImpl, ByteReader.read_to_end, heaplessClear,
    heaplessPush, List.length_nil, List.nil_append, Nat.zero_add]
  rw [if_neg (by omega)]

/-- C1: for every schema message type and every value that satisfies its schema
constraints (containers within capacity, strings valid UTF-8, enumerations in
range), serializing with the top-level `write` into a sufficiently large buffer
succeeds, and parsing the written prefix with the top-level `read` returns a
value equal to the original. -/
theorem C1_roundtrip {s : List SchemaField} (v : MsgVal s) (buf : List Nat)
    (hWF : schemaWFB s = true) (hval : msgValidB v = true)
    (hbuf : buf.length < 2 ^ 32)
    (hroom : (encodeMsg v).length ≤ buf.length) :
    ∃ (n : Nat) (out : List Nat),
      write (genImpl s) v buf = .ok (n, out) ∧
      read (genImpl s) (msgDefault s) (out.take n) = .ok v := by
  have hw := msgWriteRaw_spec v ⟨buf, 0⟩ hbuf
    (by show 0 + (encodeMsg v).length ≤ buf.length; omega)
  refine ⟨(encodeMsg v).length, splice buf 0 (encodeMsg v), ?_, ?_⟩
  · have hw2 : (genImpl s).write_raw v ⟨buf, 0⟩ =
        WRes.ok ⟨splice buf 0 (encodeMsg v), (encodeMsg v).length⟩ := by
      show msgWriteRaw v ⟨buf, 0⟩ =
        WRes.ok ⟨splice buf 0 (encodeMsg v), (encodeMsg v).length⟩
      rw [hw]
      simp
    rw [write]
    simp only [hw2]
  · have htake : (splice buf 0 (encodeMsg v)).take (encodeMsg v).length = encodeMsg v := by
      have h := @splice_take_pre buf (encodeMsg v) 0 (by omega)
      simpa using h
    rw [htake, read]
    show msgReadRaw (msgDefault s) ⟨encodeMsg v⟩ = .ok v
    exact msgReadRaw_encode v (msgDefault s) hWF hval (preStateB_default v) (by omega)

theorem C1_roundtrip_witness :
    ∃ (n : Nat) (out : List Nat),
      write (genImpl [⟨1, .single, .u32T⟩]) (.cons 300 .nil) [0, 0, 0, 0] = .ok (n, out) ∧
      read (genImpl [⟨1, .single, .u32T⟩]) (msgDefault [⟨1, .single, .u32T⟩])
        (out.take n) = .ok (.cons 300 .nil) :=
  C1_roundtrip (.cons 300 .nil) [0, 0, 0, 0] (by decide) (by decide) (by decide) (by decide)

/-- C2: for every write-cursor state and nested writer `f` that succeeds (with
the stated in-bounds side conditions), `write_length_delimited f` succeeds, the
buffer from the position where the call started holds `varuint L` followed by
exactly the `L` bytes `f` emitted (`L` the number of bytes `f` wrote), and the
cursor advances over the whole call by `L` plus the byte length of
`varuint L`. -/
theorem C2_length_delimited_framing {w w1 : ByteWriter} {f : ByteWriter → WRes ByteWriter}
    (hf : f w = .ok w1) (hmono : w.pos ≤ w1.pos) (hbound : w1.pos ≤ w1.buf.length)
    (hlen : w1.pos - w.pos < 2 ^ 32)
    (hroom : (varuintBytes (w1.pos - w.pos)).length ≤ w1.buf.length - w1.pos) :
    ∃ w2, w.write_length_delimited f = .ok w2 ∧
      w2.pos = w.pos + (varuintBytes (w1.pos - w.pos)).length + (w1.pos - w.pos) ∧
      (w2.buf.drop w.pos).take
          ((varuintBytes (w1.pos - w.pos)).length + (w1.pos - w.pos)) =
        varuintBytes (w1.pos - w.pos) ++ (w1.buf.drop w.pos).take (w1.pos - w.pos) := by
  have hw := write_length_delimited_spec hf hmono hbound hlen hroom
  refine ⟨_, hw, ?_, ?_⟩
  · show w1.pos + (varuintBytes (w1.pos - w.pos)).length =
      w.pos + (varuintBytes (w1.pos - w.pos)).length + (w1.pos - w.pos)
    omega
  · show ((w1.buf.take w.pos ++ varuintBytes (w1.pos - w.pos) ++
        (w1.buf.drop w.pos).take (w1.pos - w.pos) ++
        w1.buf.drop (w1.pos + (varuintBytes (w1.pos - w.pos)).length)).drop w.pos).take
          ((varuintBytes (w1.pos - w.pos)).length + (w1.pos - w.pos)) =
      varuintBytes (w1.pos - w.pos) ++ (w1.buf.drop w.pos).take (w1.pos - w.pos)
    have hA : (w1.buf.take w.pos).length = w.pos := by
      rw [List.length_take]
      omega
    have hB : ((w1.buf.drop w.pos).take (w1.pos - w.pos)).length = w1.pos - w.pos := by
      rw [List.length_take, List.length_drop]
      omega
    rw [List.append_assoc, List.append_assoc, List.drop_left' hA,
      List.take_append (w1.pos - w.pos), List.take_left' hB]

theorem C2_length_delimited_framing_witness :
    ∃ w2, ByteWriter.write_length_delimited ⟨[0, 0, 0, 0], 0⟩
        (fun w => w.write [7, 8]) = .ok w2 ∧
      w2.pos = 0 + (varuintBytes ((2 : Nat) - 0)).length + ((2 : Nat) - 0) ∧
      (w2.buf.drop 0).take ((varuintBytes ((2 : Nat) - 0)).length + ((2 : Nat) - 0)) =
        varuintBytes ((2 : Nat) - 0) ++ (([7, 8, 0, 0] : List Nat).drop 0).take ((2 : Nat) - 0) :=
  @C2_length_delimited_framing ⟨[0, 0, 0, 0], 0⟩ ⟨[7, 8, 0, 0], 2⟩
    (fun w => w.write [7, 8]) (by decide) (by decide) (by decide) (by decide) (by decide)

/-- C3: every unsigned varint emitted by `write_varuint32` / `write_varuint64`
is the minimal little-endian base-128 encoding (terminated, no redundant
continuation byte, length exactly determined by the value's magnitude, `0`
encoded as the single byte `0x00`); conversely a read consumes every byte of
any terminated varint, over-long ones included, and returns the value
assembled from the 7-bit groups whose shift offset is below the destination
width, discarding higher-order groups. -/
theorem C3_varint_canonicality :
    (varuintBytes 0 = [0]) ∧
    (∀ v : Nat, isTermVarint (varuintBytes v) = true) ∧
    (∀ v : Nat, v < 2 ^ (7 * (varuintBytes v).length) ∧
      ((varuintBytes v).length = 1 ∨ 2 ^ (7 * ((varuintBytes v).length - 1)) ≤ v)) ∧
    (∀ (w : ByteWriter) (v : Nat),
      w.pos + (varuintBytes v).length ≤ w.buf.length →
      w.write_varuint32 v =
          .ok ⟨splice w.buf w.pos (varuintBytes v), w.pos + (varuintBytes v).length⟩ ∧
        w.write_varuint64 v =
          .ok ⟨splice w.buf w.pos (varuintBytes v), w.pos + (varuintBytes v).length⟩) ∧
    (∀ (hb rest : List Nat), isTermVarint hb = true →
      ByteReader.read_varuint32 ⟨hb ++ rest⟩ = .ok (assembleVaruint 32 hb 0, ⟨rest⟩) ∧
        ByteReader.read_varuint64 ⟨hb ++ rest⟩ = .ok (assembleVaruint 64 hb 0, ⟨rest⟩)) := by
  refine ⟨rfl, isTermVarint_varuintBytes, varuintBytes_minimal, ?_, ?_⟩
  · intro w v hroom
    exact ⟨write_varuintCore_ok v w hroom, write_varuintCore_ok v w hroom⟩
  · intro hb rest hterm
    exact ⟨read_varuint32_term hterm, read_varuint64_term hterm⟩

theorem C3_varint_canonicality_witness :
    (ByteWriter.write_varuint32 ⟨[0, 0, 0], 0⟩ 300 =
        .ok ⟨splice [0, 0, 0] 0 (varuintBytes 300), 0 + (varuintBytes 300).length⟩ ∧
      ByteWriter.write_varuint64 ⟨[0, 0, 0], 0⟩ 300 =
        .ok ⟨splice [0, 0, 0] 0 (varuintBytes 300), 0 + (varuintBytes 300).length⟩) ∧
    (ByteReader.read_varuint32 ⟨[0xAC, 2] ++ [9]⟩ =
        .ok (assembleVaruint 32 [0xAC, 2] 0, ⟨[9]⟩) ∧
      ByteReader.read_varuint64 ⟨[0xAC, 2] ++ [9]⟩ =
        .ok (assembleVaruint 64 [0xAC, 2] 0, ⟨[9]⟩)) :=
  ⟨C3_varint_canonicality.2.2.2.1 ⟨[0, 0, 0], 0⟩ 300 (by decide),
    C3_varint_canonicality.2.2.2.2 [0xAC, 2] [9] (by decide)⟩

/-- C4: writing a signed value with the zigzag varint writer and reading the
produced bytes back returns exactly that value, for every value in the signed
32-bit range (`write_varint32`/`read_varint32`) and 64-bit range
(`write_varint64`/`read_varint64`), including the boundary values INT_MIN,
INT_MAX, 0 and -1. -/
theorem C4_zigzag_roundtrip :
    (∀ (v : Int) (rest : List Nat), -(2 ^ 31) ≤ v → v < 2 ^ 31 →
      ByteReader.read_varint32 ⟨varuintBytes (zigzagPattern 32 v) ++ rest⟩ =
        .ok (v, ⟨rest⟩)) ∧
    (∀ (v : Int) (rest : List Nat), -(2 ^ 63) ≤ v → v < 2 ^ 63 →
      ByteReader.read_varint64 ⟨varuintBytes (zigzagPattern 64 v) ++ rest⟩ =
        .ok (v, ⟨rest⟩)) ∧
    (∀ (w : ByteWriter) (v : Int),
      w.pos + (varuintBytes (zigzagPattern 32 v)).length ≤ w.buf.length →
      w.write_varint32 v = .ok ⟨splice w.buf w.pos (varuintBytes (zigzagPattern 32 v)),
        w.pos + (varuintBytes (zigzagPattern 32 v)).length⟩) ∧
    (∀ (w : ByteWriter) (v : Int),
      w.pos + (varuintBytes (zigzagPattern 64 v)).length ≤ w.buf.length →
      w.write_varint64 v = .ok ⟨splice w.buf w.pos (varuintBytes (zigzagPattern 64 v)),
        w.pos + (varuintBytes (zigzagPattern 64 v)).length⟩) ∧
    (ByteReader.read_varint32 ⟨varuintBytes (zigzagPattern 32 (-(2 ^ 31)))⟩ =
      .ok (-(2 ^ 31), ⟨[]⟩)) ∧
    (ByteReader.read_varint32 ⟨varuintBytes (zigzagPattern 32 (2 ^ 31 - 1))⟩ =
      .ok (2 ^ 31 - 1, ⟨[]⟩)) ∧
    (ByteReader.read_varint32 ⟨varuintBytes (zigzagPattern 32 0)⟩ = .ok (0, ⟨[]⟩)) ∧
    (ByteReader.read_varint32 ⟨varuintBytes (zigzagPattern 32 (-1))⟩ = .ok (-1, ⟨[]⟩)) ∧
    (ByteReader.read_varint64 ⟨varuintBytes (zigzagPattern 64 (-(2 ^ 63)))⟩ =
      .ok (-(2 ^ 63), ⟨[]⟩)) ∧
    (ByteReader.read_varint64 ⟨varuintBytes (zigzagPattern 64 (2 ^ 63 - 1))⟩ =
      .ok (2 ^ 63 - 1, ⟨[]⟩)) := by
  have h32 : ∀ (v : Int) (rest : List Nat), -(2 ^ 31) ≤ v → v < 2 ^ 31 →
      ByteReader.read_varint32 ⟨varuintBytes (zigzagPattern 32 v) ++ rest⟩ =
        .ok (v, ⟨rest⟩) := by
    intro v rest h1 h2
    rw [ByteReader.read_varint32]
    simp only [read_varuint32_varuintBytes (zigzagPattern_lt 32 v)]
    rw [unzigzag_zigzagPattern (by norm_num) h1 h2]
  have h64 : ∀ (v : Int) (rest : List Nat), -(2 ^ 63) ≤ v → v < 2 ^ 63 →
      ByteReader.read_varint64 ⟨varuintBytes (zigzagPattern 64 v) ++ rest⟩ =
        .ok (v, ⟨rest⟩) := by
    intro v rest h1 h2
    rw [ByteReader.read_varint64]
    simp only [read_varuint64_varuintBytes (zigzagPattern_lt 64 v)]
    rw [unzigzag_zigzagPattern (by norm_num) h1 h2]
  have hb1 := h32 (-(2 ^ 31)) [] (by norm_num) (by norm_num)
  have hb2 := h32 (2 ^ 31 - 1) [] (by norm_num) (by norm_num)
  have hb3 := h32 0 [] (by norm_num) (by norm_num)
  have hb4 := h32 (-1) [] (by norm_num) (by norm_num)
  have hb5 := h64 (-(2 ^ 63)) [] (by norm_num) (by norm_num)
  have hb6 := h64 (2 ^ 63 - 1) [] (by norm_num) (by norm_num)
  rw [List.append_nil] at hb1 hb2 hb3 hb4 hb5 hb6
  exact ⟨h32, h64, fun w v h => write_varuintCore_ok (zigzagPattern 32 v) w h,
    fun w v h => write_varuintCore_ok (zigzagPattern 64 v) w h,
    hb1, hb2, hb3, hb4, hb5, hb6⟩

theorem C4_zigzag_roundtrip_witness :
    ByteReader.read_varint32 ⟨varuintBytes (zigzagPattern 32 (-5)) ++ [3]⟩ =
      .ok (-5, ⟨[3]⟩) :=
  C4_zigzag_roundtrip.1 (-5) [3] (by decide) (by decide)

/-- C5 (amended): one step of the field iterator yields no item exactly when
the cursor is empty; it yields a field view carrying the tag `header >>> 3`,
the wire type and exactly the payload bytes for a well-formed field; and it
yields a ReadError when the header's low-3-bit wire type is anything other
than 0 (Varint) or 2 (LengthDelimited) — that is, for all of 1, 3, 4, 5, 6
and 7, not only the reserved values 1, 3, 4, 5 — or when the header varint or
a varint payload is unterminated, or when a length-delimited payload declares
a length exceeding the remaining bytes. -/
theorem C5_field_iterator :
    (∀ r : ByteReader, fieldIterNext r = none ↔ r.data = []) ∧
    (∀ hb vb rest : List Nat, isTermVarint hb = true → isTermVarint vb = true →
      assembleVaruint 32 hb 0 &&& 7 = 0 →
      fieldIterNext ⟨hb ++ vb ++ rest⟩ =
        some (.ok (⟨assembleVaruint 32 hb 0 >>> 3, vb, .Varint⟩, ⟨rest⟩))) ∧
    (∀ hb pl rest : List Nat, isTermVarint hb = true →
      assembleVaruint 32 hb 0 &&& 7 = 2 → pl.length < 2 ^ 32 →
      fieldIterNext ⟨hb ++ varuintBytes pl.length ++ pl ++ rest⟩ =
        some (.ok (⟨assembleVaruint 32 hb 0 >>> 3, pl, .LengthDelimited⟩, ⟨rest⟩))) ∧
    (∀ hb rest : List Nat, isTermVarint hb = true →
      assembleVaruint 32 hb 0 &&& 7 ≠ 0 → assembleVaruint 32 hb 0 &&& 7 ≠ 2 →
      fieldIterNext ⟨hb ++ rest⟩ = some .err) ∧
    (∀ data : List Nat, data ≠ [] → (∀ b ∈ data, b &&& 0x80 ≠ 0) →
      fieldIterNext ⟨data⟩ = some .err) ∧
    (∀ hb rest : List Nat, isTermVarint hb = true →
      assembleVaruint 32 hb 0 &&& 7 = 0 → (∀ b ∈ rest, b &&& 0x80 ≠ 0) →
      fieldIterNext ⟨hb ++ rest⟩ = some .err) ∧
    (∀ (hb pl : List Nat) (len : Nat), isTermVarint hb = true →
      assembleVaruint 32 hb 0 &&& 7 = 2 → len < 2 ^ 32 → pl.length < len →
      fieldIterNext ⟨hb ++ varuintBytes len ++ pl⟩ = some .err) := by
  refine ⟨?_, fun hb vb rest h1 h2 h3 => fieldIterNext_varint_ok h1 h2 h3,
    fun hb pl rest h1 h2 h3 => fieldIterNext_ld_ok h1 h2 h3,
    fun hb rest h1 h2 h3 => fieldIterNext_badwire h1 h2 h3,
    fun data h1 h2 => fieldIterNext_truncated_header h1 h2,
    fun hb rest h1 h2 h3 => fieldIterNext_truncated_varint h1 h2 h3,
    fun hb pl len h1 h2 h3 h4 => fieldIterNext_ld_overrun h1 h2 h3 h4⟩
  intro r
  constructor
  · exact fieldIterNext_none
  · intro h
    cases r with
    | mk data =>
      simp only at h
      rw [h]
      exact fieldIterNext_nil

theorem C5_field_iterator_witness :
    fieldIterNext ⟨[0x08] ++ [0x96, 0x01] ++ [7]⟩ =
      some (.ok (⟨assembleVaruint 32 [0x08] 0 >>> 3, [0x96, 0x01], .Varint⟩, ⟨[7]⟩)) :=
  C5_field_iterator.2.1 [0x08] [0x96, 0x01] [7] (by decide) (by decide) (by decide)

theorem C5_field_iterator_counterexample :
    fieldIterNext ⟨[6]⟩ = some .err ∧
    isTermVarint [6] = true ∧
    assembleVaruint 32 [6] 0 &&& 7 = 6 ∧
    6 ∉ ([1, 3, 4, 5] : List Nat) := by decide

/-- C6: all four field-dispatch read operations return a ReadError whenever
the field view's wire type differs from the target implementation's declared
wire type, for every target implementation (so in particular regardless of its
`read_raw`, which is never consulted); decoding a LengthDelimited field into a
Varint-typed target is an instance. -/
theorem C6_wire_type_mismatch {α : Type} (impl : MessageImpl α) (fr : FieldReader)
    (h : fr.wire_type ≠ impl.wireType) :
    (∀ msg : α, fr.read impl msg = .err) ∧
    (∀ (dflt : α) (cap : Nat) (holder : List α),
      fr.read_repeated impl dflt cap holder = .err) ∧
    (∀ (dflt : α) (holder : Option α), fr.read_optional impl dflt holder = .err) ∧
    (∀ dflt : α, fr.read_oneof_variant impl dflt = .err) := by
  refine ⟨fun msg => ?_, fun dflt cap holder => ?_, fun dflt holder => ?_, fun dflt => ?_⟩
  · rw [FieldReader.read, if_pos h]
  · rw [FieldReader.read_repeated, if_pos h]
  · rw [FieldReader.read_optional, if_pos h]
  · rw [FieldReader.read_oneof_variant, if_pos h]

theorem C6_wire_type_mismatch_witness :
    FieldReader.read (primImpl .u32T) ⟨1, [0], .LengthDelimited⟩ 0 = .err :=
  (C6_wire_type_mismatch (primImpl .u32T) ⟨1, [0], .LengthDelimited⟩ (by decide)).1 0

/-- C7: for a generated composite message, appending one additional
well-formed field whose tag matches none of the schema's field tags to a
buffer that parses successfully yields a buffer that still parses successfully
to the same value — the unrecognized field is silently discarded. -/
theorem C7_unknown_field {s : List SchemaField} {t : PrimTy} (d : List Nat)
    (m : MsgVal s) (tag : Nat) (v : PrimVal t)
    (hparse : read (genImpl s) (msgDefault s) d = .ok m)
    (htag : tag < 2 ^ 29) (hnotin : tag ∉ s.map SchemaField.tag)
    (hlenb : (encodePrim t v).length < 2 ^ 32) :
    read (genImpl s) (msgDefault s) (d ++ encodeFieldSingle t tag v) = .ok m := by
  have hparse2 : readLoopFuel msgStep (d.length + 1) (msgDefault s) ⟨d⟩ = .ok m := hparse
  have happ := readLoopFuel_append msgStep (d.length + 1) (msgDefault s) ⟨d⟩ m
    (encodeFieldSingle t tag v) ((d ++ encodeFieldSingle t tag v).length + 1)
    hparse2
    (by
      show d.length + (encodeFieldSingle t tag v).length <
        (d ++ encodeFieldSingle t tag v).length + 1
      rw [List.length_append]
      omega)
  dsimp only at happ
  show readLoopFuel msgStep ((d ++ encodeFieldSingle t tag v).length + 1)
    (msgDefault s) ⟨d ++ encodeFieldSingle t tag v⟩ = .ok m
  rw [happ, readLoopFuel]
  have hfi := @fieldIterNext_single t tag v [] htag hlenb
  rw [List.append_nil] at hfi
  simp only [hfi]
  have hstep := msgStep_unknown m (frSingle t tag v) (by simpa [frSingle] using hnotin)
  simp only [hstep]
  have hpos : 0 < (d ++ encodeFieldSingle t tag v).length := by
    rw [List.length_append]
    have := List.length_pos.mpr (encodeFieldSingle_ne_nil t tag v)
    omega
  rw [readLoopFuel_congr msgStep ((d ++ encodeFieldSingle t tag v).length) 1 m ⟨[]⟩
    (by show ([] : List Nat).length < _; simpa using hpos)
    (by show ([] : List Nat).length < 1; simp)]
  exact readLoopFuel_nil msgStep 0 m

theorem C7_unknown_field_witness :
    read (genImpl [⟨1, .single, .u32T⟩]) (msgDefault [⟨1, .single, .u32T⟩])
        ([8, 5] ++ encodeFieldSingle .u32T 2 7) = .ok (.cons 5 .nil) :=
  C7_unknown_field [8, 5] (.cons 5 .nil) 2 7 (by rfl) (by decide) (by decide) (by decide)

/-- C8: `ByteWriter::write` either copies the whole slice at `pos` (the buffer
becomes the splice of the slice at `pos`, its length is unchanged, `pos`
advances by the slice length and the bytes written so far extend by exactly
the slice), or, when the remaining capacity `buf.len() - pos` is smaller than
the slice, returns a WriteError — the Rust code returns before mutating, so
`pos` and the buffer are unchanged by the failed write, which the model
reflects by carrying no state in the error; in every state the bytes written
so far are exactly the buffer prefix `[0, pos)`. -/
theorem C8_bytewriter_write (w : ByteWriter) (bs : List Nat)
    (hpos : w.pos ≤ w.buf.length) :
    (w.bytes = w.buf.take w.pos) ∧
    (w.buf.length - w.pos < bs.length → w.write bs = .err) ∧
    (bs.length ≤ w.buf.length - w.pos →
      ∃ w1, w.write bs = .ok w1 ∧
        w1.buf = splice w.buf w.pos bs ∧
        w1.pos = w.pos + bs.length ∧
        w1.buf.length = w.buf.length ∧
        w1.bytes = w.bytes ++ bs) := by
  refine ⟨rfl, fun h => write_err h, fun h => ?_⟩
  refine ⟨⟨splice w.buf w.pos bs, w.pos + bs.length⟩, write_ok (by omega), rfl, rfl, ?_, ?_⟩
  · exact length_splice (by omega)
  · show (splice w.buf w.pos bs).take (w.pos + bs.length) = w.buf.take w.pos ++ bs
    exact splice_take_pre hpos

theorem C8_bytewriter_write_witness :
    ((⟨[0, 0, 0], 1⟩ : ByteWriter).bytes = ([0, 0, 0] : List Nat).take 1) ∧
    (([0, 0, 0] : List Nat).length - 1 < ([5, 6] : List Nat).length →
      ByteWriter.write ⟨[0, 0, 0], 1⟩ [5, 6] = .err) ∧
    (([5, 6] : List Nat).length ≤ ([0, 0, 0] : List Nat).length - 1 →
      ∃ w1, ByteWriter.write ⟨[0, 0, 0], 1⟩ [5, 6] = .ok w1 ∧
        w1.buf = splice [0, 0, 0] 1 [5, 6] ∧
        w1.pos = 1 + ([5, 6] : List Nat).length ∧
        w1.buf.length = ([0, 0, 0] : List Nat).length ∧
        w1.bytes = (⟨[0, 0, 0], 1⟩ : ByteWriter).bytes ++ [5, 6]) :=
  C8_bytewriter_write ⟨[0, 0, 0], 1⟩ [5, 6] (by decide)

theorem write_no_panic (w : ByteWriter) (bs : List Nat) : w.write bs ≠ .panicked := by
  rw [ByteWriter.write]
  by_cases h : w.buf.length - w.pos < bs.length
  · rw [if_pos h]
    simp
  · rw [if_neg h]
    simp

theorem write_varuintCore_no_panic :
    ∀ (v : Nat) (w : ByteWriter), w.write_varuintCore v ≠ .panicked := by
  intro v
  induction v using Nat.strong_induction_on with
  | _ v ih =>
    intro w
    rw [ByteWriter.write_varuintCore]
    by_cases h : v >>> 7 = 0
    · rw [if_neg (by simpa using h)]
      rw [ByteWriter.write_u8]
      exact write_no_panic w _
    · rw [if_pos (by simpa using h)]
      cases hw : w.write_u8 (v &&& 0x7F ||| 0x80) with
      | err => simp
      | panicked =>
        rw [ByteWriter.write_u8] at hw
        exact absurd hw (write_no_panic w _)
      | ok w1 =>
        simp only
        exact ih (v >>> 7) (shiftRight_seven_lt (fun h0 => h (by rw [h0]; rfl))) w1

/-- C9 (amended): the optional-oneof adapter's `read_raw_option` panics
unconditionally (the documented programmer-error panic for nesting), and the
primitive writers never panic — but contrary to the specification this is not
the only reachable panic: `write_length_delimited` panics (via the
`len.try_into().unwrap()` on a 64-bit `usize`) exactly when its nested writer
succeeds after emitting `2 ^ 32` or more bytes, or itself panics. -/
theorem C9_panics :
    (∀ (α : Type) (oi : OneofImpl α) (o : Option α) (fr : FieldReader),
      (optionOneof oi).read_raw_option o fr = .panicked) ∧
    (∀ (w : ByteWriter) (f : ByteWriter → WRes ByteWriter),
      w.write_length_delimited f = .panicked ↔
        (f w = .panicked ∨ ∃ w1, f w = .ok w1 ∧ 2 ^ 32 ≤ w1.pos - w.pos)) ∧
    (∀ (w : ByteWriter) (bs : List Nat), w.write bs ≠ .panicked) ∧
    (∀ (w : ByteWriter) (v : Nat), w.write_varuintCore v ≠ .panicked) ∧
    (∀ (w : ByteWriter) (v : Int), w.write_varint32 v ≠ .panicked) ∧
    (∀ (w : ByteWriter) (v : Int), w.write_varint64 v ≠ .panicked) := by
  refine ⟨fun α oi o fr => rfl, ?_, write_no_panic,
    fun w v => write_varuintCore_no_panic v w,
    fun w v => write_varuintCore_no_panic (zigzagPattern 32 v) w,
    fun w v => write_varuintCore_no_panic (zigzagPattern 64 v) w⟩
  intro w f
  cases hf : f w with
  | err =>
    rw [ByteWriter.write_length_delimited]
    simp [hf]
  | panicked =>
    rw [ByteWriter.write_length_delimited]
    simp [hf]
  | ok w1 =>
    by_cases hlen : w1.pos - w.pos < 2 ^ 32
    · have h5 : (varuintBytes (w1.pos - w.pos)).length ≤ 5 :=
        varuintBytes_length_le (by norm_num)
          (by
            calc w1.pos - w.pos < 2 ^ 32 := hlen
              _ ≤ 2 ^ (7 * 5) := by norm_num)
      have hscr := write_varuintCore_ok (w1.pos - w.pos) ⟨List.replicate 16 0, 0⟩
        (by
          show 0 + (varuintBytes (w1.pos - w.pos)).length ≤ (List.replicate 16 0).length
          rw [List.length_replicate]
          omega)
      rw [ByteWriter.write_length_delimited]
      simp only [hf, hscr, if_pos hlen]
      constructor
      · intro h
        by_cases hrm : w1.buf.length - w1.pos <
            ((splice (List.replicate 16 0) 0 (varuintBytes (w1.pos - w.pos))).take
              (0 + (varuintBytes (w1.pos - w.pos)).length)).length
        · rw [if_pos hrm] at h
          exact absurd h (by simp)
        · rw [if_neg hrm] at h
          exact absurd h (by simp)
      · intro h
        rcases h with h | ⟨w2, hw2, hge⟩
        · exact absurd h (by simp)
        · have heq := WRes.ok.inj hw2
          rw [← heq] at hge
          omega
    · rw [ByteWriter.write_length_delimited]
      simp only [hf, if_neg hlen]
      constructor
      · intro _
        exact Or.inr ⟨w1, rfl, by omega⟩
      · intro _
        trivial

theorem C9_panics_witness :
    (optionOneof (⟨fun _ w => .ok w, fun a _ => .ok a, fun o _ => .ok o⟩ :
      OneofImpl Nat)).read_raw_option none ⟨1, [], .Varint⟩ = .panicked :=
  C9_panics.1 Nat ⟨fun _ w => .ok w, fun a _ => .ok a, fun o _ => .ok o⟩ none ⟨1, [], .Varint⟩

theorem write_length_delimited_oversize {w w1 : ByteWriter}
    {f : ByteWriter → WRes ByteWriter}
    (hf : f w = .ok w1) (hlen : 2 ^ 32 ≤ w1.pos - w.pos) :
    w.write_length_delimited f = .panicked := by
  rw [ByteWriter.write_length_delimited]
  simp only [hf]
  rw [if_neg (by omega)]

theorem C9_panics_counterexample :
    ByteWriter.write_length_delimited ⟨List.replicate (2 ^ 32 + 16) 0, 0⟩
      (fun w => w.write (List.replicate (2 ^ 32) 1)) = .panicked := by
  have hR1 : (List.replicate (2 ^ 32 + 16) 0).length = 2 ^ 32 + 16 := by
    simp only [List.length_replicate]
  have hR2 : (List.replicate (2 ^ 32) 1).length = 2 ^ 32 := by
    simp only [List.length_replicate]
  have hpos : (⟨List.replicate (2 ^ 32 + 16) 0, 0⟩ : ByteWriter).pos = 0 := rfl
  have hbuf : (⟨List.replicate (2 ^ 32 + 16) 0, 0⟩ : ByteWriter).buf =
      List.replicate (2 ^ 32 + 16) 0 := rfl
  have hf : (fun w => ByteWriter.write w (List.replicate (2 ^ 32) 1))
        ⟨List.replicate (2 ^ 32 + 16) 0, 0⟩ =
      .ok ⟨splice (List.replicate (2 ^ 32 + 16) 0) 0 (List.replicate (2 ^ 32) 1),
           2 ^ 32⟩ := by
    show ByteWriter.write ⟨List.replicate (2 ^ 32 + 16) 0, 0⟩
      (List.replicate (2 ^ 32) 1) = _
    have hcond : ¬((⟨List.replicate (2 ^ 32 + 16) 0, 0⟩ : ByteWriter).buf.length -
        (⟨List.replicate (2 ^ 32 + 16) 0, 0⟩ : ByteWriter).pos <
        (List.replicate (2 ^ 32) 1).length) := by
      rw [hbuf, hpos, hR1, hR2]
      omega
    rw [ByteWriter.write, if_neg hcond]
    rw [hbuf, hpos, hR2, Nat.zero_add]
  have hp2 : (⟨splice (List.replicate (2 ^ 32 + 16) 0) 0 (List.replicate (2 ^ 32) 1),
      2 ^ 32⟩ : ByteWriter).pos = 2 ^ 32 := rfl
  refine write_length_delimited_oversize hf ?_
  rw [hp2, hpos]
  omega

/-- C10: reading a bounded string or bounded byte sequence first clears the
holder and then fills it with exactly the cursor's remaining bytes — the
result is independent of the previous contents (replace, not append) — failing
on invalid UTF-8 for strings and on capacity overflow for both; consequently
when a buffer carries two fields with the tag of a singular bytes field, the
parsed value equals the last occurrence's payload alone. -/
theorem C10_replace_semantics :
    (∀ (cap : Nat) (old data : List Nat), utf8Valid data = true → data.length ≤ cap →
      (primImpl (.stringT cap)).read_raw old ⟨data⟩ = .ok data) ∧
    (∀ (cap : Nat) (old data : List Nat), utf8Valid data = false →
      (primImpl (.stringT cap)).read_raw old ⟨data⟩ = .err) ∧
    (∀ (cap : Nat) (old data : List Nat), cap < data.length →
      (primImpl (.stringT cap)).read_raw old ⟨data⟩ = .err) ∧
    (∀ (cap : Nat) (old data : List Nat), data.length ≤ cap →
      (primImpl (.bytesT cap)).read_raw old ⟨data⟩ = .ok data) ∧
    (∀ (cap : Nat) (old data : List Nat), cap < data.length →
      (primImpl (.bytesT cap)).read_raw old ⟨data⟩ = .err) ∧
    (∀ (cap tag : Nat) (p1 p2 : List Nat), tag < 2 ^ 29 →
      p1.length ≤ cap → p2.length ≤ cap → p1.length < 2 ^ 32 → p2.length < 2 ^ 32 →
      read (genImpl [⟨tag, .single, .bytesT cap⟩])
          (msgDefault [⟨tag, .single, .bytesT cap⟩])
          (encodeFieldSingle (.bytesT cap) tag p1 ++
            encodeFieldSingle (.bytesT cap) tag p2) =
        .ok (.cons p2 .nil)) := by
  refine ⟨stringT_read_ok, stringT_read_badutf8, stringT_read_overflow,
    bytesT_read_ok, bytesT_read_overflow, ?_⟩
  intro cap tag p1 p2 htag h1cap h2cap h1len h2len
  have hread : ∀ (old p : List Nat), p.length ≤ cap →
      FieldReader.read (primImpl (.bytesT cap)) (frSingle (.bytesT cap) tag p) old =
        .ok p := by
    intro old p hcap
    rw [FieldReader.read, if_neg (by simp [frSingle])]
    exact bytesT_read_ok cap old p hcap
  have hstep : ∀ (old p : List Nat), p.length ≤ cap →
      @msgStep [⟨tag, .single, .bytesT cap⟩] (.cons old .nil)
        (frSingle (.bytesT cap) tag p) =
        .ok (@MsgVal.cons ⟨tag, .single, .bytesT cap⟩ [] p .nil) := by
    intro old p hcap
    rw [@msgStep_head ⟨tag, .single, .bytesT cap⟩ [] old .nil
      (frSingle (.bytesT cap) tag p) rfl]
    dsimp only
    rw [stepFieldKd]
    simp only [hread old p hcap]
  have hgood : ∀ p ∈ [(encodeFieldSingle (.bytesT cap) tag p1,
        frSingle (.bytesT cap) tag p1),
      (encodeFieldSingle (.bytesT cap) tag p2, frSingle (.bytesT cap) tag p2)],
      ∀ tail : List Nat, fieldIterNext ⟨p.1 ++ tail⟩ = some (.ok (p.2, ⟨tail⟩)) := by
    intro p hp tail
    rcases List.mem_cons.mp hp with h1 | hp2
    · rw [h1]
      exact fieldIterNext_single htag h1len
    · rcases List.mem_cons.mp hp2 with h2 | h0
      · rw [h2]
        exact fieldIterNext_single htag h2len
      · exact absurd h0 (List.not_mem_nil p)
  have hchunks := readLoopFuel_chunks msgStep
    [(encodeFieldSingle (.bytesT cap) tag p1, frSingle (.bytesT cap) tag p1),
      (encodeFieldSingle (.bytesT cap) tag p2, frSingle (.bytesT cap) tag p2)]
    hgood [] (msgDefault [⟨tag, .single, .bytesT cap⟩])
    ((encodeFieldSingle (.bytesT cap) tag p1 ++
      encodeFieldSingle (.bytesT cap) tag p2).length + 1)
    (by
      simp only [List.map_cons, List.map_nil, List.flatten_cons, List.flatten_nil,
        List.append_nil, List.length_append, List.length_nil]
      omega)
  simp only [List.map_cons, List.map_nil, List.flatten_cons, List.flatten_nil,
    List.append_nil] at hchunks
  have hfold : foldE msgStep (msgDefault [⟨tag, .single, .bytesT cap⟩])
      [frSingle (.bytesT cap) tag p1, frSingle (.bytesT cap) tag p2] =
      .ok (@MsgVal.cons ⟨tag, .single, .bytesT cap⟩ [] p2 .nil) := by
    have hdef : msgDefault [(⟨tag, .single, .bytesT cap⟩ : SchemaField)] =
        MsgVal.cons (primDefault (.bytesT cap)) .nil := rfl
    rw [foldE, hdef]
    simp only [hstep (primDefault (.bytesT cap)) p1 h1cap]
    rw [foldE]
    simp only [hstep p1 p2 h2cap]
    rfl
  show readLoopFuel msgStep
      ((encodeFieldSingle (.bytesT cap) tag p1 ++
        encodeFieldSingle (.bytesT cap) tag p2).length + 1)
      (msgDefault [⟨tag, .single, .bytesT cap⟩])
      ⟨encodeFieldSingle (.bytesT cap) tag p1 ++
        encodeFieldSingle (.bytesT cap) tag p2⟩ =
    .ok (.cons p2 .nil)
  rw [hchunks]
  simp only [hfold]
  exact readLoopFuel_nil msgStep
    ((encodeFieldSingle (.bytesT cap) tag p1 ++
      encodeFieldSingle (.bytesT cap) tag p2).length)
    (@MsgVal.cons ⟨tag, .single, .bytesT cap⟩ [] p2 .nil)

theorem C10_replace_semantics_witness :
    read (genImpl [⟨1, .single, .bytesT 5⟩]) (msgDefault [⟨1, .single, .bytesT 5⟩])
        (encodeFieldSingle (.bytesT 5) 1 [9] ++ encodeFieldSingle (.bytesT 5) 1 [2, 3]) =
      .ok (.cons [2, 3] .nil) :=
  C10_replace_semantics.2.2.2.2.2 5 1 [9] [2, 3] (by decide) (by decide) (by decide)
    (by decide) (by decide)

end Noproto
